import Mathlib

/-!
Verification of the core algorithms of the `ai-stamp-batch` repository.

The development shallowly embeds the pixel pipeline of
`makeInteriorOpaquePngBase64` and `resizeContainBilinear`
(`src/app/api/batch/route.ts`, duplicated in the generate route), the
batch polling protocol (`tryGetBatchResultImageBase64`, the bounded poll
loop of the generate route), and the `batch-csv` submission endpoint.

Raster images are modelled after decoding: a width, a height and a flat
RGBA byte buffer (`data (p * 4 + c)` is channel `c` of pixel `p`), exactly
as `pngjs` exposes them.  PNG decoding/encoding and base64 conversion are
external library calls and stay abstract; JavaScript doubles are modelled
with exact rational arithmetic.
-/

/-- A decoded RGBA raster: `width`, `height` and the flat pixel buffer of
`pngjs` (`data (p * 4 + c)`, channel `c ∈ [0,4)` of pixel index `p`). -/
structure Img where
  width : Nat
  height : Nat
  data : Nat → Nat

/-- `width * height`, the pixel count `size` of the route code. -/
def Img.size (img : Img) : Nat := img.width * img.height

namespace Sticker

/-- `alphaAt` from the route code: `data[p * 4 + 3]`. -/
def alphaAt (img : Img) (p : Nat) : Nat := img.data (p * 4 + 3)

/-- The four neighbour candidates generated by the BFS loops of
`makeInteriorOpaquePngBase64`: for `x = p % width`, `y = p / width` the
code visits `(x-1,y)`, `(x+1,y)`, `(x,y-1)`, `(x,y+1)`, each guarded by
the corresponding bounds check. -/
def adjIdx (img : Img) (p q : Nat) : Prop :=
  let x := p % img.width
  let y := p / img.width
  (0 < x ∧ q = y * img.width + (x - 1)) ∨
  (x + 1 < img.width ∧ q = y * img.width + (x + 1)) ∨
  (0 < y ∧ q = (y - 1) * img.width + x) ∨
  (y + 1 < img.height ∧ q = (y + 1) * img.width + x)

instance (img : Img) (p q : Nat) : Decidable (adjIdx img p q) := by
  unfold adjIdx; infer_instance

/-- Specification-side reachability used by phase 1 of the alpha
normalisation: an `alpha = 0` pixel connected to the canvas border through
a 4-connected path of `alpha = 0` pixels. -/
inductive BorderReach (img : Img) : Nat → Prop
  | seed (x y : Nat) (hx : x < img.width) (hy : y < img.height)
      (hb : x = 0 ∨ x + 1 = img.width ∨ y = 0 ∨ y + 1 = img.height)
      (ha : alphaAt img (y * img.width + x) = 0) :
      BorderReach img (y * img.width + x)
  | step (p q : Nat) (hp : BorderReach img p) (hadj : adjIdx img p q)
      (ha : alphaAt img q = 0) : BorderReach img q

/-! ### Phase 1 — hole fill (border flood over transparent pixels) -/

/-- The mutable state of the phase-1 flood: the `bg` mark array and the
unprocessed part of the `q2` queue. -/
structure FloodState where
  bg : Nat → Bool
  queue : List Nat

/-- `pushIfTransparent` from the route code: mark and enqueue `(x, y)`
when its alpha is `0` and it is not yet marked. -/
def pushIfTransparent (img : Img) (s : FloodState) (x y : Nat) : FloodState :=
  let p := y * img.width + x
  if alphaAt img p ≠ 0 then s
  else if s.bg p then s
  else { bg := fun q => if q = p then true else s.bg q
         queue := s.queue ++ [p] }

/-- The border seeding loops of phase 1: `(x, 0)` and `(x, height-1)` for
every column, then `(0, y)` and `(width-1, y)` for every row. -/
def seedBorder (img : Img) : FloodState :=
  let s0 : FloodState := ⟨fun _ => false, []⟩
  let s1 := (List.range img.width).foldl
    (fun s x => pushIfTransparent img (pushIfTransparent img s x 0) x (img.height - 1)) s0
  (List.range img.height).foldl
    (fun s y => pushIfTransparent img (pushIfTransparent img s 0 y) (img.width - 1) y) s1

/-- The body of one `while (h2 < t2)` iteration of the phase-1 flood:
pop `p`, recover `x = p % width`, `y = (p / width) | 0`, and push the four
bounds-checked 4-neighbours. -/
def floodStep (img : Img) (bg : Nat → Bool) (p : Nat) (rest : List Nat) : FloodState :=
  let x := p % img.width
  let y := p / img.width
  let s1 : FloodState := ⟨bg, rest⟩
  let s2 := if 0 < x then pushIfTransparent img s1 (x - 1) y else s1
  let s3 := if x + 1 < img.width then pushIfTransparent img s2 (x + 1) y else s2
  let s4 := if 0 < y then pushIfTransparent img s3 x (y - 1) else s3
  if y + 1 < img.height then pushIfTransparent img s4 x (y + 1) else s4

/-- The `while (h2 < t2)` loop of the phase-1 flood applied until the
queue empties, with explicit fuel (the code's queue has fixed capacity
`size`, and at most `size` pixels are ever enqueued). -/
def floodLoop (img : Img) : Nat → FloodState → (Nat → Bool)
  | 0, s => s.bg
  | fuel + 1, s =>
    match s.queue with
    | [] => s.bg
    | p :: rest => floodLoop img fuel (floodStep img s.bg p rest)

/-- The `bg` array after the phase-1 flood has terminated:
`1` exactly on the background-connected transparent pixels. -/
def backgroundMask (img : Img) : Nat → Bool :=
  floodLoop img img.size (seedBorder img)

/-- The final loop of phase 1: every `alpha = 0` pixel not reached by the
border flood has all four channels forced to `255`. -/
def fillHoles (img : Img) : Img where
  width := img.width
  height := img.height
  data := fun i =>
    if i / 4 < img.size ∧ alphaAt img (i / 4) = 0 ∧ backgroundMask img (i / 4) = false
    then 255 else img.data i

/-! ### Correctness of the phase-1 flood -/

/-- Number of marked in-range pixels; drives the fuel argument. -/
def markCount (img : Img) (bg : Nat → Bool) : Nat :=
  ((Finset.range img.size).filter (fun p => bg p = true)).card

lemma markCount_le (img : Img) (bg : Nat → Bool) : markCount img bg ≤ img.size := by
  classical
  calc ((Finset.range img.size).filter (fun p => bg p = true)).card
      ≤ (Finset.range img.size).card := Finset.card_filter_le _ _
    _ = img.size := Finset.card_range _

lemma markCount_update (img : Img) (bg : Nat → Bool) (p : Nat)
    (hp : p < img.size) (hbg : bg p = false) :
    markCount img (fun q => if q = p then true else bg q) = markCount img bg + 1 := by
  classical
  unfold markCount
  have hset : (Finset.range img.size).filter
      (fun q => (if q = p then true else bg q) = true)
      = insert p ((Finset.range img.size).filter (fun q => bg q = true)) := by
    ext q
    by_cases hq : q = p
    · subst hq
      simp [Finset.mem_filter, Finset.mem_range, hp]
    · simp [Finset.mem_filter, Finset.mem_range, hq]
  rw [hset, Finset.card_insert_of_not_mem]
  simp [Finset.mem_filter, hbg]

lemma pix_lt {w h x y : Nat} (hx : x < w) (hy : y < h) : y * w + x < w * h := by
  calc y * w + x < y * w + w := Nat.add_lt_add_left hx _
    _ = (y + 1) * w := by ring
    _ ≤ h * w := Nat.mul_le_mul_right w hy
    _ = w * h := Nat.mul_comm h w

lemma coords_lt {img : Img} {p : Nat} (hp : p < img.size) :
    p % img.width < img.width ∧ p / img.width < img.height := by
  have hw : 0 < img.width := by
    rcases Nat.eq_zero_or_pos img.width with h | h
    · exfalso
      have : img.size = 0 := by simp [Img.size, h]
      omega
    · exact h
  refine ⟨Nat.mod_lt _ hw, ?_⟩
  exact Nat.div_lt_of_lt_mul (by simpa [Img.size] using hp)

lemma coord_recon {w p : Nat} : (p / w) * w + p % w = p := by
  have h1 := Nat.div_add_mod p w
  have h2 : (p / w) * w = w * (p / w) := Nat.mul_comm _ _
  omega

/-- The invariant of the phase-1 flood.  The sentinel `t` names one pixel
whose closure obligation is temporarily suspended (the pixel being
processed); with `t = img.size` it is the plain invariant since marked
pixels are in range. -/
structure FloodInv (img : Img) (t : Nat) (s : FloodState) : Prop where
  marked_queue : ∀ p ∈ s.queue, s.bg p = true
  nodup : s.queue.Nodup
  sound : ∀ p, s.bg p = true → BorderReach img p
  bounds : ∀ p, s.bg p = true → p < img.size ∧ alphaAt img p = 0
  closed : ∀ p, s.bg p = true → p ∉ s.queue → p ≠ t →
    ∀ q, adjIdx img p q → alphaAt img q = 0 → s.bg q = true

lemma pushIfTransparent_cases (img : Img) (s : FloodState) (x y : Nat) :
    pushIfTransparent img s x y = s ∨
    (alphaAt img (y * img.width + x) = 0 ∧ s.bg (y * img.width + x) = false ∧
      pushIfTransparent img s x y =
        ⟨fun q => if q = y * img.width + x then true else s.bg q,
          s.queue ++ [y * img.width + x]⟩) := by
  unfold pushIfTransparent
  by_cases ha : alphaAt img (y * img.width + x) ≠ 0
  · left; simp [ha]
  · push_neg at ha
    by_cases hb : s.bg (y * img.width + x) = true
    · left; simp [ha, hb]
    · right
      simp only [Bool.not_eq_true] at hb
      refine ⟨ha, hb, ?_⟩
      simp [ha, hb]

/-- A single `pushIfTransparent` call preserves the invariant, grows the
mark set, marks its target when transparent, and leaves the fuel measure
`|queue| + (size - markCount)` unchanged. -/
lemma push_inv {img : Img} {t : Nat} {s : FloodState} {x y : Nat}
    (hInv : FloodInv img t s) (hx : x < img.width) (hy : y < img.height)
    (hr : alphaAt img (y * img.width + x) = 0 →
      BorderReach img (y * img.width + x)) :
    FloodInv img t (pushIfTransparent img s x y) ∧
    (∀ q, s.bg q = true → (pushIfTransparent img s x y).bg q = true) ∧
    (alphaAt img (y * img.width + x) = 0 →
      (pushIfTransparent img s x y).bg (y * img.width + x) = true) ∧
    (pushIfTransparent img s x y).queue.length +
        (img.size - markCount img (pushIfTransparent img s x y).bg) =
      s.queue.length + (img.size - markCount img s.bg) := by
  rcases pushIfTransparent_cases img s x y with heq | ⟨ha, hb, heq⟩
  · rw [heq]
    refine ⟨hInv, fun q h => h, ?_, rfl⟩
    intro ha2
    -- push returned `s` unchanged: either alpha ≠ 0 (contradiction) or already marked
    unfold pushIfTransparent at heq
    by_cases hbg : s.bg (y * img.width + x) = true
    · exact hbg
    · simp only [Bool.not_eq_true] at hbg
      exfalso
      simp [ha2, hbg] at heq
      have h2 := congrFun (congrArg FloodState.bg heq) (y * img.width + x)
      simp [hbg] at h2
  · set P := y * img.width + x with hP
    have hPlt : P < img.size := by
      have := pix_lt hx hy
      simpa [Img.size, hP] using this
    rw [heq]
    have hmono : ∀ q, s.bg q = true → (if q = P then true else s.bg q) = true := by
      intro q h
      by_cases hq : q = P <;> simp [hq, h]
    refine ⟨?_, hmono, ?_, ?_⟩
    · refine ⟨?_, ?_, ?_, ?_, ?_⟩
      · intro q hq
        rcases List.mem_append.mp hq with h | h
        · exact hmono q (hInv.marked_queue q h)
        · simp only [List.mem_singleton] at h
          simp [h]
      · have hPnot : P ∉ s.queue := by
          intro hc
          have := hInv.marked_queue P hc
          rw [hb] at this
          exact Bool.false_ne_true this
        simp [List.nodup_append, hInv.nodup, hPnot]
      · intro q hq
        by_cases hqP : q = P
        · subst hqP
          exact hr ha
        · simp only [hqP, if_false] at hq
          exact hInv.sound q hq
      · intro q hq
        by_cases hqP : q = P
        · subst hqP
          exact ⟨hPlt, ha⟩
        · simp only [hqP, if_false] at hq
          exact hInv.bounds q hq
      · intro q hq hnq hnt r hadj har
        by_cases hqP : q = P
        · exfalso
          apply hnq
          subst hqP
          exact List.mem_append_right _ (List.mem_singleton.mpr rfl)
        · simp only [hqP, if_false] at hq
          have hnq2 : q ∉ s.queue := fun hc => hnq (List.mem_append_left _ hc)
          exact hmono r (hInv.closed q hq hnq2 hnt r hadj har)
    · intro _
      simp
    · have hlen : (s.queue ++ [P]).length = s.queue.length + 1 := by simp
      have hmc : markCount img (fun q => if q = P then true else s.bg q) =
          markCount img s.bg + 1 := markCount_update img s.bg P hPlt hb
      have hmcle : markCount img s.bg + 1 ≤ img.size := by
        rw [← hmc]
        exact markCount_le img _
      simp only [hlen, hmc]
      omega

/-- `push_inv` lifted over the bounds-check guard of a push. -/
lemma cond_push_inv {img : Img} {t : Nat} {s : FloodState} (c : Prop) [Decidable c]
    {x y : Nat} (hInv : FloodInv img t s) (hx : c → x < img.width)
    (hy : c → y < img.height)
    (hr : c → alphaAt img (y * img.width + x) = 0 →
      BorderReach img (y * img.width + x)) :
    FloodInv img t (if c then pushIfTransparent img s x y else s) ∧
    (∀ q, s.bg q = true → (if c then pushIfTransparent img s x y else s).bg q = true) ∧
    (c → alphaAt img (y * img.width + x) = 0 →
      (if c then pushIfTransparent img s x y else s).bg (y * img.width + x) = true) ∧
    (if c then pushIfTransparent img s x y else s).queue.length +
        (img.size - markCount img (if c then pushIfTransparent img s x y else s).bg) =
      s.queue.length + (img.size - markCount img s.bg) := by
  by_cases hc : c
  · simp only [hc, if_true]
    obtain ⟨h1, h2, h3, h4⟩ := push_inv hInv (hx hc) (hy hc) (hr hc)
    exact ⟨h1, h2, fun _ => h3, h4⟩
  · simp only [hc, if_false]
    exact ⟨hInv, fun q h => h, fun hcc => hcc.elim, trivial⟩

/-- One pop-and-expand iteration of the phase-1 flood preserves the
invariant, grows the mark set, marks every transparent 4-neighbour of the
popped pixel, and decreases the fuel measure by exactly one. -/
lemma floodStep_inv {img : Img} {bg : Nat → Bool} {p : Nat} {rest : List Nat}
    (hInv : FloodInv img img.size ⟨bg, p :: rest⟩) :
    FloodInv img img.size (floodStep img bg p rest) ∧
    (∀ q, bg q = true → (floodStep img bg p rest).bg q = true) ∧
    (floodStep img bg p rest).queue.length +
        (img.size - markCount img (floodStep img bg p rest).bg) =
      rest.length + (img.size - markCount img bg) := by
  classical
  have hpq : p ∈ (⟨bg, p :: rest⟩ : FloodState).queue := by simp
  have hpmark : bg p = true := hInv.marked_queue p hpq
  obtain ⟨hplt, hpa⟩ := hInv.bounds p hpmark
  obtain ⟨hx, hy⟩ := coords_lt hplt
  have hreach : BorderReach img p := hInv.sound p hpmark
  have hInv1 : FloodInv img p ⟨bg, rest⟩ := by
    refine ⟨?_, ?_, hInv.sound, hInv.bounds, ?_⟩
    · intro q hq
      exact hInv.marked_queue q (List.mem_cons_of_mem _ hq)
    · exact (List.nodup_cons.mp hInv.nodup).2
    · intro r hr hnr hnp q hadj ha
      refine hInv.closed r hr ?_ (Nat.ne_of_lt (hInv.bounds r hr).1) q hadj ha
      simp [List.mem_cons, hnp, hnr]
  set w := img.width with hwdef
  set X := p % img.width with hX
  set Y := p / img.width with hY
  set s1 : FloodState := ⟨bg, rest⟩ with hs1
  -- step 1: (x-1, y)
  obtain ⟨i2, m2, k2, e2⟩ :=
    cond_push_inv (s := s1) (0 < X) (x := X - 1) (y := Y) hInv1
      (fun _ => Nat.lt_of_le_of_lt (Nat.sub_le _ _) hx) (fun _ => hy)
      (fun hc ha => BorderReach.step p _ hreach (Or.inl ⟨hc, rfl⟩) ha)
  set s2 := if 0 < X then pushIfTransparent img s1 (X - 1) Y else s1 with hs2
  -- step 2: (x+1, y)
  obtain ⟨i3, m3, k3, e3⟩ :=
    cond_push_inv (s := s2) (X + 1 < img.width) (x := X + 1) (y := Y) i2
      (fun hc => hc) (fun _ => hy)
      (fun hc ha => BorderReach.step p _ hreach (Or.inr (Or.inl ⟨hc, rfl⟩)) ha)
  set s3 := if X + 1 < img.width then pushIfTransparent img s2 (X + 1) Y else s2 with hs3
  -- step 3: (x, y-1)
  obtain ⟨i4, m4, k4, e4⟩ :=
    cond_push_inv (s := s3) (0 < Y) (x := X) (y := Y - 1) i3
      (fun _ => hx) (fun _ => Nat.lt_of_le_of_lt (Nat.sub_le _ _) hy)
      (fun hc ha => BorderReach.step p _ hreach (Or.inr (Or.inr (Or.inl ⟨hc, rfl⟩))) ha)
  set s4 := if 0 < Y then pushIfTransparent img s3 X (Y - 1) else s3 with hs4
  -- step 4: (x, y+1)
  obtain ⟨i5, m5, k5, e5⟩ :=
    cond_push_inv (s := s4) (Y + 1 < img.height) (x := X) (y := Y + 1) i4
      (fun _ => hx) (fun hc => hc)
      (fun hc ha => BorderReach.step p _ hreach (Or.inr (Or.inr (Or.inr ⟨hc, rfl⟩))) ha)
  set s5 := if Y + 1 < img.height then pushIfTransparent img s4 X (Y + 1) else s4 with hs5
  have hstep : floodStep img bg p rest = s5 := rfl
  rw [hstep]
  have hneigh : ∀ q, adjIdx img p q → alphaAt img q = 0 → s5.bg q = true := by
    intro q hadj ha
    have hadj2 : (0 < X ∧ q = Y * img.width + (X - 1)) ∨
        (X + 1 < img.width ∧ q = Y * img.width + (X + 1)) ∨
        (0 < Y ∧ q = (Y - 1) * img.width + X) ∨
        (Y + 1 < img.height ∧ q = (Y + 1) * img.width + X) := hadj
    rcases hadj2 with ⟨hc, rfl⟩ | ⟨hc, rfl⟩ | ⟨hc, rfl⟩ | ⟨hc, rfl⟩
    · exact m5 _ (m4 _ (m3 _ (k2 hc ha)))
    · exact m5 _ (m4 _ (k3 hc ha))
    · exact m5 _ (k4 hc ha)
    · exact k5 hc ha
  refine ⟨?_, ?_, ?_⟩
  · refine ⟨i5.marked_queue, i5.nodup, i5.sound, i5.bounds, ?_⟩
    intro r hr hnr hnt q hadj ha
    by_cases hrp : r = p
    · subst hrp
      exact hneigh q hadj ha
    · exact i5.closed r hr hnr hrp q hadj ha
  · intro q hq
    exact m5 _ (m4 _ (m3 _ (m2 _ hq)))
  · rw [e5, e4, e3, e2]

/-- Running the flood to completion from an invariant state yields a mark
set that contains the initial marks, consists only of border-reachable
transparent pixels, and is closed under transparent 4-neighbour steps. -/
lemma floodLoop_post (img : Img) :
    ∀ (fuel : Nat) (s : FloodState), FloodInv img img.size s →
    s.queue.length + (img.size - markCount img s.bg) ≤ fuel →
    (∀ p, s.bg p = true → floodLoop img fuel s p = true) ∧
    (∀ p, floodLoop img fuel s p = true → BorderReach img p) ∧
    (∀ p q, floodLoop img fuel s p = true → adjIdx img p q →
      alphaAt img q = 0 → floodLoop img fuel s q = true) := by
  intro fuel
  induction fuel with
  | zero =>
    intro s hInv hfuel
    have hq : s.queue = [] := List.length_eq_zero.mp (by omega)
    simp only [floodLoop]
    refine ⟨fun p h => h, hInv.sound, ?_⟩
    intro p q hp hadj ha
    exact hInv.closed p hp (by simp [hq]) (Nat.ne_of_lt (hInv.bounds p hp).1) q hadj ha
  | succ fuel ih =>
    intro s hInv hfuel
    obtain ⟨bg, queue⟩ := s
    cases queue with
    | nil =>
      simp only [floodLoop]
      refine ⟨fun p h => h, hInv.sound, ?_⟩
      intro p q hp hadj ha
      exact hInv.closed p hp (by simp) (Nat.ne_of_lt (hInv.bounds p hp).1) q hadj ha
    | cons p rest =>
      obtain ⟨hInv5, hmono5, hmeas5⟩ := floodStep_inv hInv
      have hloop : floodLoop img (fuel + 1) ⟨bg, p :: rest⟩ =
          floodLoop img fuel (floodStep img bg p rest) := rfl
      have hfuel5 : (floodStep img bg p rest).queue.length +
          (img.size - markCount img (floodStep img bg p rest).bg) ≤ fuel := by
        simp only [List.length_cons] at hfuel
        omega
      obtain ⟨r1, r2, r3⟩ := ih (floodStep img bg p rest) hInv5 hfuel5
      rw [hloop]
      exact ⟨fun q hq => r1 q (hmono5 q hq), r2, r3⟩

/-- The empty flood state satisfies the invariant. -/
lemma floodInv_empty (img : Img) (t : Nat) :
    FloodInv img t ⟨fun _ => false, []⟩ := by
  refine ⟨?_, ?_, ?_, ?_, ?_⟩
  · intro p hp; simp at hp
  · exact List.nodup_nil
  · intro p hp; simp at hp
  · intro p hp; simp at hp
  · intro p hp; simp at hp

/-- The first seeding loop marks every transparent pixel of the top and
bottom rows, preserving the invariant. -/
lemma seedFoldTopBottom (img : Img) (hh : 0 < img.height) :
    ∀ (l : List Nat) (s : FloodState), (∀ x ∈ l, x < img.width) →
    FloodInv img img.size s →
    FloodInv img img.size (l.foldl
      (fun s x => pushIfTransparent img (pushIfTransparent img s x 0) x (img.height - 1)) s) ∧
    (∀ q, s.bg q = true → (l.foldl
      (fun s x => pushIfTransparent img (pushIfTransparent img s x 0) x (img.height - 1)) s).bg q = true) ∧
    (∀ x ∈ l,
      (alphaAt img (0 * img.width + x) = 0 → (l.foldl
        (fun s x => pushIfTransparent img (pushIfTransparent img s x 0) x (img.height - 1)) s).bg
          (0 * img.width + x) = true) ∧
      (alphaAt img ((img.height - 1) * img.width + x) = 0 → (l.foldl
        (fun s x => pushIfTransparent img (pushIfTransparent img s x 0) x (img.height - 1)) s).bg
          ((img.height - 1) * img.width + x) = true)) := by
  intro l
  induction l with
  | nil =>
    intro s _ hInv
    exact ⟨hInv, fun q h => h, by simp⟩
  | cons a l ihl =>
    intro s hl hInv
    have ha : a < img.width := hl a (List.mem_cons_self a l)
    obtain ⟨iA, mA, kA, _⟩ :=
      push_inv (x := a) (y := 0) hInv ha hh
        (fun haa => BorderReach.seed a 0 ha hh (Or.inr (Or.inr (Or.inl rfl))) haa)
    obtain ⟨iB, mB, kB, _⟩ :=
      push_inv (x := a) (y := img.height - 1) iA ha (Nat.sub_lt hh Nat.one_pos)
        (fun haa => BorderReach.seed a (img.height - 1) ha (Nat.sub_lt hh Nat.one_pos)
          (Or.inr (Or.inr (Or.inr (Nat.succ_pred_eq_of_pos hh)))) haa)
    obtain ⟨r1, r2, r3⟩ := ihl
      (pushIfTransparent img (pushIfTransparent img s a 0) a (img.height - 1))
      (fun x hx => hl x (List.mem_cons_of_mem _ hx)) iB
    have hfold : (a :: l).foldl
        (fun s x => pushIfTransparent img (pushIfTransparent img s x 0) x (img.height - 1)) s =
      l.foldl (fun s x => pushIfTransparent img (pushIfTransparent img s x 0) x (img.height - 1))
        (pushIfTransparent img (pushIfTransparent img s a 0) a (img.height - 1)) := rfl
    rw [hfold]
    refine ⟨r1, fun q hq => r2 q (mB q (mA q hq)), ?_⟩
    intro x hx
    rcases List.mem_cons.mp hx with hxa | hxl
    · subst hxa
      exact ⟨fun haa => r2 _ (mB _ (kA haa)), fun haa => r2 _ (kB haa)⟩
    · exact r3 x hxl

/-- The second seeding loop marks every transparent pixel of the left and
right columns, preserving the invariant. -/
lemma seedFoldLeftRight (img : Img) (hw : 0 < img.width) :
    ∀ (l : List Nat) (s : FloodState), (∀ y ∈ l, y < img.height) →
    FloodInv img img.size s →
    FloodInv img img.size (l.foldl
      (fun s y => pushIfTransparent img (pushIfTransparent img s 0 y) (img.width - 1) y) s) ∧
    (∀ q, s.bg q = true → (l.foldl
      (fun s y => pushIfTransparent img (pushIfTransparent img s 0 y) (img.width - 1) y) s).bg q = true) ∧
    (∀ y ∈ l,
      (alphaAt img (y * img.width + 0) = 0 → (l.foldl
        (fun s y => pushIfTransparent img (pushIfTransparent img s 0 y) (img.width - 1) y) s).bg
          (y * img.width + 0) = true) ∧
      (alphaAt img (y * img.width + (img.width - 1)) = 0 → (l.foldl
        (fun s y => pushIfTransparent img (pushIfTransparent img s 0 y) (img.width - 1) y) s).bg
          (y * img.width + (img.width - 1)) = true)) := by
  intro l
  induction l with
  | nil =>
    intro s _ hInv
    exact ⟨hInv, fun q h => h, by simp⟩
  | cons a l ihl =>
    intro s hl hInv
    have ha : a < img.height := hl a (List.mem_cons_self a l)
    obtain ⟨iA, mA, kA, _⟩ :=
      push_inv (x := 0) (y := a) hInv hw ha
        (fun haa => BorderReach.seed 0 a hw ha (Or.inl rfl) haa)
    obtain ⟨iB, mB, kB, _⟩ :=
      push_inv (x := img.width - 1) (y := a) iA (Nat.sub_lt hw Nat.one_pos) ha
        (fun haa => BorderReach.seed (img.width - 1) a (Nat.sub_lt hw Nat.one_pos) ha
          (Or.inr (Or.inl (Nat.succ_pred_eq_of_pos hw))) haa)
    obtain ⟨r1, r2, r3⟩ := ihl
      (pushIfTransparent img (pushIfTransparent img s 0 a) (img.width - 1) a)
      (fun y hy => hl y (List.mem_cons_of_mem _ hy)) iB
    have hfold : (a :: l).foldl
        (fun s y => pushIfTransparent img (pushIfTransparent img s 0 y) (img.width - 1) y) s =
      l.foldl (fun s y => pushIfTransparent img (pushIfTransparent img s 0 y) (img.width - 1) y)
        (pushIfTransparent img (pushIfTransparent img s 0 a) (img.width - 1) a) := rfl
    rw [hfold]
    refine ⟨r1, fun q hq => r2 q (mB q (mA q hq)), ?_⟩
    intro y hy
    rcases List.mem_cons.mp hy with hya | hyl
    · subst hya
      exact ⟨fun haa => r2 _ (mB _ (kA haa)), fun haa => r2 _ (kB haa)⟩
    · exact r3 y hyl

/-- The fully seeded state: invariant plus coverage of every transparent
border pixel. -/
lemma seedBorder_spec (img : Img) (hw : 0 < img.width) (hh : 0 < img.height) :
    FloodInv img img.size (seedBorder img) ∧
    (∀ x y, x < img.width → y < img.height →
      (x = 0 ∨ x + 1 = img.width ∨ y = 0 ∨ y + 1 = img.height) →
      alphaAt img (y * img.width + x) = 0 →
      (seedBorder img).bg (y * img.width + x) = true) := by
  obtain ⟨i1, m1, k1⟩ := seedFoldTopBottom img hh (List.range img.width)
    ⟨fun _ => false, []⟩ (fun x hx => List.mem_range.mp hx) (floodInv_empty img _)
  obtain ⟨i2, m2, k2⟩ := seedFoldLeftRight img hw (List.range img.height)
    (Sticker.FloodState.mk _ _) (fun y hy => List.mem_range.mp hy) i1
  constructor
  · exact i2
  · intro x y hx hy hb ha
    rcases hb with hb | hb | hb | hb
    · subst hb
      have := (k2 y (List.mem_range.mpr hy)).1
      simpa using this (by simpa using ha)
    · have hx1 : x = img.width - 1 := by omega
      subst hx1
      exact (k2 y (List.mem_range.mpr hy)).2 ha
    · subst hb
      have := (k1 x (List.mem_range.mpr hx)).1
      have h0 : (0 : Nat) * img.width + x = x := by ring
      exact m2 _ (this (by simpa [h0] using ha))
    · have hy1 : y = img.height - 1 := by omega
      subst hy1
      exact m2 _ ((k1 x (List.mem_range.mpr hx)).2 ha)

lemma queue_len_le_markCount (img : Img) {s : FloodState}
    (hInv : FloodInv img img.size s) : s.queue.length ≤ markCount img s.bg := by
  classical
  have hcard : s.queue.toFinset.card = s.queue.length :=
    List.toFinset_card_of_nodup hInv.nodup
  have hsub : s.queue.toFinset ⊆ (Finset.range img.size).filter (fun p => s.bg p = true) := by
    intro q hq
    have hqmem : q ∈ s.queue := List.mem_toFinset.mp hq
    have hmark := hInv.marked_queue q hqmem
    have hb := hInv.bounds q hmark
    simp [Finset.mem_filter, Finset.mem_range, hb.1, hmark]
  calc s.queue.length = s.queue.toFinset.card := hcard.symm
    _ ≤ ((Finset.range img.size).filter (fun p => s.bg p = true)).card :=
        Finset.card_le_card hsub
    _ = markCount img s.bg := rfl

/-- The `bg` array computed by phase 1 marks exactly the transparent
pixels with a 4-connected transparent path to the canvas border. -/
theorem backgroundMask_iff (img : Img) (hw : 0 < img.width) (hh : 0 < img.height)
    (p : Nat) : backgroundMask img p = true ↔ BorderReach img p := by
  obtain ⟨hseedInv, hcov⟩ := seedBorder_spec img hw hh
  have hmeas : (seedBorder img).queue.length +
      (img.size - markCount img (seedBorder img).bg) ≤ img.size := by
    have h1 := queue_len_le_markCount img hseedInv
    have h2 := markCount_le img (seedBorder img).bg
    omega
  obtain ⟨r1, r2, r3⟩ := floodLoop_post img img.size (seedBorder img) hseedInv hmeas
  constructor
  · exact r2 p
  · intro hr
    induction hr with
    | seed x y hx hy hb ha => exact r1 _ (hcov x y hx hy hb ha)
    | step a b hp hadj ha ihp => exact r3 a b ihp hadj ha

/-- A border-reachable pixel is transparent. -/
lemma BorderReach.transparent {img : Img} {p : Nat} (h : BorderReach img p) :
    alphaAt img p = 0 := by
  cases h with
  | seed x y hx hy hb ha => exact ha
  | step a b hp hadj ha => exact ha

/-! ### Phase 2 — edge-preserving opacity clamp -/

/-- The eight neighbour offsets `(dx, dy)` scanned by the edge detector,
in the loop order of the code (`dy` outer, `dx` inner, skipping `(0,0)`). -/
def edgeOffsets : List (Int × Int) :=
  [(-1, -1), (0, -1), (1, -1), (-1, 0), (1, 0), (-1, 1), (0, 1), (1, 1)]

/-- Edge test of phase 2: an `alpha > 0` pixel at `(x, y)` is an edge
pixel when one of its 8 neighbours lies outside the canvas or has
`alpha = 0`.  (The caller guarantees `alpha > 0`.) -/
def isEdgeAt (img : Img) (x y : Nat) : Bool :=
  edgeOffsets.any fun d =>
    let nx : Int := (x : Int) + d.1
    let ny : Int := (y : Int) + d.2
    if nx < 0 ∨ ny < 0 ∨ (img.width : Int) ≤ nx ∨ (img.height : Int) ≤ ny then true
    else decide (alphaAt img (ny.toNat * img.width + nx.toNat) = 0)

/-- The mutable state of the phase-2 BFS: the `dist` array (`-1` means
unvisited, as in the `Int16Array` of the code) and the unprocessed part
of the `q` queue. -/
structure DistState where
  dist : Nat → Int
  queue : List Nat

/-- The body of the edge-seeding double loop of phase 2 at cell `(x, y)`:
skip transparent pixels, give edge pixels distance `0` and enqueue them. -/
def seedCell (img : Img) (y : Nat) (s : DistState) (x : Nat) : DistState :=
  let p := y * img.width + x
  if alphaAt img p = 0 then s
  else if isEdgeAt img x y then
    ⟨fun q => if q = p then 0 else s.dist q, s.queue ++ [p]⟩
  else s

/-- The edge-seeding double loop of phase 2: every `alpha > 0` edge pixel
gets distance `0` and is enqueued, scanning rows then columns. -/
def seedEdges (img : Img) : DistState :=
  (List.range img.height).foldl (fun s y =>
    (List.range img.width).foldl (seedCell img y) s) ⟨fun _ => -1, []⟩

/-- The neighbour-relaxation of the phase-2 BFS: assign `d + 1` and
enqueue when the neighbour is opaque and unvisited. -/
def relax (img : Img) (d : Int) (s : DistState) (nx ny : Nat) : DistState :=
  let np := ny * img.width + nx
  if alphaAt img np = 0 then s
  else if s.dist np ≠ -1 then s
  else ⟨fun q => if q = np then d + 1 else s.dist q, s.queue ++ [np]⟩

/-- The body of one `while (head < tail)` iteration of the phase-2 BFS:
pop `p`, read `d = dist[p]`, and relax the four bounds-checked
4-neighbours in the order of the code. -/
def distStep (img : Img) (dist : Nat → Int) (p : Nat) (rest : List Nat) : DistState :=
  let x := p % img.width
  let y := p / img.width
  let d := dist p
  let s1 : DistState := ⟨dist, rest⟩
  let s2 := if 0 < x then relax img d s1 (x - 1) y else s1
  let s3 := if x + 1 < img.width then relax img d s2 (x + 1) y else s2
  let s4 := if 0 < y then relax img d s3 x (y - 1) else s3
  if y + 1 < img.height then relax img d s4 x (y + 1) else s4

/-- The `while (head < tail)` loop of the phase-2 BFS, with explicit fuel
(the code's queue has fixed capacity `size`). -/
def distLoop (img : Img) : Nat → DistState → (Nat → Int)
  | 0, s => s.dist
  | fuel + 1, s =>
    match s.queue with
    | [] => s.dist
    | p :: rest => distLoop img fuel (distStep img s.dist p rest)

/-- `KEEP_EDGE_PX` from the route code. -/
def KEEP_EDGE_PX : Int := 2

/-- The finished `dist` array of phase 2. -/
def edgeDist (img : Img) : Nat → Int := distLoop img img.size (seedEdges img)

/-- The final loop of phase 2: clamp the alpha of every `alpha > 0` pixel
at BFS distance greater than `KEEP_EDGE_PX` to `255`. -/
def clampInterior (img : Img) : Img where
  width := img.width
  height := img.height
  data := fun i =>
    if i % 4 = 3 ∧ i / 4 < img.size ∧ alphaAt img (i / 4) ≠ 0 ∧
        KEEP_EDGE_PX < edgeDist img (i / 4)
    then 255 else img.data i

/-- The full pixel transform of `makeInteriorOpaquePngBase64` (between the
PNG decode and re-encode, which are external `pngjs` calls): phase 1 hole
fill, then phase 2 opacity clamp. -/
def makeInteriorOpaque (img : Img) : Img := clampInterior (fillHoles img)

/-- Specification-side bounded distance: `edgeWithin img n p` holds when
there is a path of at most `n` 4-connected steps through `alpha > 0`
pixels from some edge pixel to `p`. -/
def edgeWithin (img : Img) : Nat → Nat → Bool
  | 0, p => decide (p < img.size) && decide (alphaAt img p ≠ 0) &&
      isEdgeAt img (p % img.width) (p / img.width)
  | n + 1, p => edgeWithin img n p ||
      (decide (p < img.size) && decide (alphaAt img p ≠ 0) &&
        (List.range img.size).any fun q => decide (adjIdx img q p) && edgeWithin img n q)

/-! ### Correctness of the phase-2 BFS -/

lemma idx_mod {w x y : Nat} (hx : x < w) : (y * w + x) % w = x := by
  rw [Nat.add_comm, Nat.add_mul_mod_self_right]
  exact Nat.mod_eq_of_lt hx

lemma idx_div {w x y : Nat} (hw : 0 < w) (hx : x < w) : (y * w + x) / w = y := by
  rw [Nat.add_comm, Nat.add_mul_div_right _ _ hw, Nat.div_eq_of_lt hx, Nat.zero_add]

lemma edgeWithin_succ_of (img : Img) {n p : Nat} (h : edgeWithin img n p = true) :
    edgeWithin img (n + 1) p = true := by
  unfold edgeWithin
  simp [h]

lemma edgeWithin_mono (img : Img) {n m p : Nat} (hnm : n ≤ m)
    (h : edgeWithin img n p = true) : edgeWithin img m p = true := by
  induction hnm with
  | refl => exact h
  | step _ ih => exact edgeWithin_succ_of img ih

lemma edgeWithin_zero_iff (img : Img) (p : Nat) :
    edgeWithin img 0 p = true ↔
    p < img.size ∧ alphaAt img p ≠ 0 ∧
      isEdgeAt img (p % img.width) (p / img.width) = true := by
  unfold edgeWithin
  simp [Bool.and_assoc]

/-- Taking one BFS step back extends a bounded-distance witness. -/
lemma edgeWithin_step (img : Img) {dn p T : Nat} (hT : T < img.size)
    (hop : alphaAt img T ≠ 0) (hp : p < img.size) (hadj : adjIdx img p T)
    (hwn : edgeWithin img dn p = true) : edgeWithin img (dn + 1) T = true := by
  unfold edgeWithin
  refine Bool.or_eq_true_iff.mpr (Or.inr ?_)
  simp only [Bool.and_eq_true, decide_eq_true_eq, List.any_eq_true]
  exact ⟨⟨hT, hop⟩, p, List.mem_range.mpr hp, by simp [hadj, hwn]⟩

/-- Number of visited in-range pixels of a `dist` array. -/
def markCountD (img : Img) (dist : Nat → Int) : Nat :=
  ((Finset.range img.size).filter (fun p => dist p ≠ -1)).card

lemma markCountD_le (img : Img) (dist : Nat → Int) : markCountD img dist ≤ img.size := by
  classical
  calc ((Finset.range img.size).filter (fun p => dist p ≠ -1)).card
      ≤ (Finset.range img.size).card := Finset.card_filter_le _ _
    _ = img.size := Finset.card_range _

lemma markCountD_update (img : Img) (dist : Nat → Int) (p : Nat) (v : Int)
    (hp : p < img.size) (hd : dist p = -1) (hv : v ≠ -1) :
    markCountD img (fun q => if q = p then v else dist q) = markCountD img dist + 1 := by
  classical
  unfold markCountD
  have hset : (Finset.range img.size).filter
      (fun q => (if q = p then v else dist q) ≠ -1)
      = insert p ((Finset.range img.size).filter (fun q => dist q ≠ -1)) := by
    ext q
    by_cases hq : q = p
    · subst hq
      simp [Finset.mem_filter, Finset.mem_range, hp, hv]
    · simp [Finset.mem_filter, Finset.mem_range, hq]
  rw [hset, Finset.card_insert_of_not_mem]
  simp [Finset.mem_filter, hd]

/-- `EdgeCov dist` holds once every opaque edge pixel has distance `0`. -/
def EdgeCov (img : Img) (dist : Nat → Int) : Prop :=
  ∀ p, p < img.size → alphaAt img p ≠ 0 →
    isEdgeAt img (p % img.width) (p / img.width) = true → dist p = 0

/-- The invariant of the phase-2 BFS (sentinel `t` as in `FloodInv`). -/
structure DistInv (img : Img) (t : Nat) (s : DistState) : Prop where
  marked_queue : ∀ p ∈ s.queue, s.dist p ≠ -1
  nodup : s.queue.Nodup
  bounds : ∀ p, s.dist p ≠ -1 → p < img.size ∧ alphaAt img p ≠ 0
  nonneg : ∀ p, s.dist p ≠ -1 → 0 ≤ s.dist p
  achieve : ∀ p (d : Nat), s.dist p = (d : Int) → edgeWithin img d p = true
  sorted : s.queue.Pairwise (fun a b => s.dist a ≤ s.dist b)
  span : ∀ a ∈ s.queue, ∀ b ∈ s.queue, s.dist b ≤ s.dist a + 1
  procLE : ∀ p, s.dist p ≠ -1 → p ∉ s.queue → ∀ r ∈ s.queue, s.dist p ≤ s.dist r
  closed : ∀ p, s.dist p ≠ -1 → p ∉ s.queue → p ≠ t →
    ∀ q, adjIdx img p q → alphaAt img q ≠ 0 →
      s.dist q ≠ -1 ∧ s.dist q ≤ s.dist p + 1

lemma relax_cases (img : Img) (d : Int) (s : DistState) (nx ny : Nat) :
    (relax img d s nx ny = s ∧
      (alphaAt img (ny * img.width + nx) ≠ 0 → s.dist (ny * img.width + nx) ≠ -1)) ∨
    (alphaAt img (ny * img.width + nx) ≠ 0 ∧ s.dist (ny * img.width + nx) = -1 ∧
      relax img d s nx ny =
        ⟨fun q => if q = ny * img.width + nx then d + 1 else s.dist q,
          s.queue ++ [ny * img.width + nx]⟩) := by
  unfold relax
  by_cases ha : alphaAt img (ny * img.width + nx) = 0
  · left
    constructor
    · simp [ha]
    · intro hop; exact absurd ha hop
  · by_cases hm : s.dist (ny * img.width + nx) ≠ -1
    · left
      constructor
      · simp [ha, hm]
      · intro _; exact hm
    · right
      push_neg at hm
      refine ⟨ha, hm, ?_⟩
      simp [ha, hm]

/-- A single `relax` call preserves the invariant, edge coverage, and the
frontier bookkeeping of the pixel being expanded (whose distance is `d`),
marks its target with distance at most `d + 1`, and keeps the fuel
measure unchanged. -/
lemma relax_inv {img : Img} {t : Nat} {s : DistState} {d : Int} {nx ny : Nat}
    (hInv : DistInv img t s) (hcov : EdgeCov img s.dist)
    (hx : nx < img.width) (hy : ny < img.height) (dn : Nat) (hd : d = (dn : Int))
    (hprov : alphaAt img (ny * img.width + nx) ≠ 0 →
      edgeWithin img (dn + 1) (ny * img.width + nx) = true)
    (hq1 : ∀ r ∈ s.queue, s.dist r ≤ d + 1)
    (hq2 : ∀ r ∈ s.queue, d ≤ s.dist r)
    (hq3 : ∀ p, s.dist p ≠ -1 → p ∉ s.queue → s.dist p ≤ d + 1) :
    DistInv img t (relax img d s nx ny) ∧
    EdgeCov img (relax img d s nx ny).dist ∧
    (∀ q, s.dist q ≠ -1 → (relax img d s nx ny).dist q = s.dist q) ∧
    (alphaAt img (ny * img.width + nx) ≠ 0 →
      (relax img d s nx ny).dist (ny * img.width + nx) ≠ -1 ∧
      (relax img d s nx ny).dist (ny * img.width + nx) ≤ d + 1) ∧
    (∀ r ∈ (relax img d s nx ny).queue, (relax img d s nx ny).dist r ≤ d + 1) ∧
    (∀ r ∈ (relax img d s nx ny).queue, d ≤ (relax img d s nx ny).dist r) ∧
    (∀ p, (relax img d s nx ny).dist p ≠ -1 → p ∉ (relax img d s nx ny).queue →
      (relax img d s nx ny).dist p ≤ d + 1) ∧
    (relax img d s nx ny).queue.length +
        (img.size - markCountD img (relax img d s nx ny).dist) =
      s.queue.length + (img.size - markCountD img s.dist) := by
  classical
  rcases relax_cases img d s nx ny with ⟨heq, hskipmark⟩ | ⟨hop, hunm, heq⟩
  · rw [heq]
    refine ⟨hInv, hcov, fun q _ => rfl, ?_, hq1, hq2, hq3, rfl⟩
    intro hop2
    have hm := hskipmark hop2
    refine ⟨hm, ?_⟩
    by_cases hqmem : ny * img.width + nx ∈ s.queue
    · exact hq1 _ hqmem
    · exact hq3 _ hm hqmem
  · set NP := ny * img.width + nx with hNP
    have hNPlt : NP < img.size := by
      have := pix_lt hx hy
      simpa [Img.size, hNP] using this
    have hNPnq : NP ∉ s.queue := by
      intro hc
      exact (hInv.marked_queue NP hc) hunm
    have hdne : d + 1 ≠ -1 := by rw [hd]; omega
    have hdpos : 0 ≤ d + 1 := by rw [hd]; omega
    set u : Nat → Int := fun q => if q = NP then d + 1 else s.dist q with hu
    have huneq : ∀ q, q ≠ NP → u q = s.dist q := by
      intro q hq
      simp [hu, hq]
    have hustab : ∀ q, s.dist q ≠ -1 → u q = s.dist q := by
      intro q hq
      refine huneq q ?_
      intro hc; rw [hc] at hq; exact hq hunm
    have huNP : u NP = d + 1 := by simp [hu]
    set L := s.queue ++ [NP] with hL
    have hNPinL : NP ∈ L := List.mem_append_right _ (List.mem_singleton.mpr rfl)
    have hmemL : ∀ q, q ∈ L → q ∈ s.queue ∨ q = NP := by
      intro q hq
      rcases List.mem_append.mp hq with h | h
      · exact Or.inl h
      · exact Or.inr (List.mem_singleton.mp h)
    have hnotL : ∀ q, q ∉ L → q ∉ s.queue ∧ q ≠ NP := by
      intro q hq
      constructor
      · exact fun hc => hq (List.mem_append_left _ hc)
      · exact fun hc => hq (hc ▸ hNPinL)
    have hmq : ∀ p ∈ L, u p ≠ -1 := by
      intro p hp
      rcases hmemL p hp with h | h
      · rw [hustab p (hInv.marked_queue p h)]
        exact hInv.marked_queue p h
      · subst h; rw [huNP]; exact hdne
    have hnd : L.Nodup := by
      simp [hL, List.nodup_append, hInv.nodup, hNPnq]
    have hbd : ∀ p, u p ≠ -1 → p < img.size ∧ alphaAt img p ≠ 0 := by
      intro p hp
      by_cases hpNP : p = NP
      · subst hpNP; exact ⟨hNPlt, hop⟩
      · rw [huneq p hpNP] at hp
        exact hInv.bounds p hp
    have hnn : ∀ p, u p ≠ -1 → 0 ≤ u p := by
      intro p hp
      by_cases hpNP : p = NP
      · subst hpNP; rw [huNP]; exact hdpos
      · rw [huneq p hpNP] at hp ⊢
        exact hInv.nonneg p hp
    have hac : ∀ p (dq : Nat), u p = (dq : Int) → edgeWithin img dq p = true := by
      intro p dq hp
      by_cases hpNP : p = NP
      · subst hpNP
        rw [huNP] at hp
        have hdq : dq = dn + 1 := by
          rw [hd] at hp
          omega
        rw [hdq]
        exact hprov hop
      · rw [huneq p hpNP] at hp
        exact hInv.achieve p dq hp
    have hsrt : L.Pairwise (fun a b => u a ≤ u b) := by
      rw [hL, List.pairwise_append]
      refine ⟨?_, List.pairwise_singleton _ _, ?_⟩
      · refine hInv.sorted.imp_of_mem ?_
        intro a b ha hb hab
        rw [hustab a (hInv.marked_queue a ha), hustab b (hInv.marked_queue b hb)]
        exact hab
      · intro a ha b hb
        simp only [List.mem_singleton] at hb
        subst hb
        rw [hustab a (hInv.marked_queue a ha), huNP]
        exact hq1 a ha
    have hsp : ∀ a ∈ L, ∀ b ∈ L, u b ≤ u a + 1 := by
      intro a ham b hbm
      rcases hmemL a ham with ha | ha <;> rcases hmemL b hbm with hb | hb
      · rw [hustab a (hInv.marked_queue a ha), hustab b (hInv.marked_queue b hb)]
        exact hInv.span a ha b hb
      · subst hb
        rw [hustab a (hInv.marked_queue a ha), huNP]
        have := hq2 a ha
        omega
      · subst ha
        rw [hustab b (hInv.marked_queue b hb), huNP]
        have := hq1 b hb
        omega
      · subst ha; subst hb
        rw [huNP]
        omega
    have hpl : ∀ p, u p ≠ -1 → p ∉ L → ∀ r ∈ L, u p ≤ u r := by
      intro q hq hnq r hr
      obtain ⟨hqold, hqNP⟩ := hnotL q hnq
      rw [huneq q hqNP] at hq ⊢
      rcases hmemL r hr with h | h
      · rw [hustab r (hInv.marked_queue r h)]
        exact hInv.procLE q hq hqold r h
      · subst h
        rw [huNP]
        exact hq3 q hq hqold
    have hcl : ∀ p, u p ≠ -1 → p ∉ L → p ≠ t →
        ∀ q, adjIdx img p q → alphaAt img q ≠ 0 → u q ≠ -1 ∧ u q ≤ u p + 1 := by
      intro q hq hnq hnt r hadj hopr
      obtain ⟨hqold, hqNP⟩ := hnotL q hnq
      rw [huneq q hqNP] at hq ⊢
      obtain ⟨h1, h2⟩ := hInv.closed q hq hqold hnt r hadj hopr
      rw [hustab r h1]
      exact ⟨h1, h2⟩
    have hcov2 : EdgeCov img u := by
      intro q hlt hopq hedge
      have h0 := hcov q hlt hopq hedge
      have hne : s.dist q ≠ -1 := by rw [h0]; omega
      rw [hustab q hne]
      exact h0
    have hq1n : ∀ r ∈ L, u r ≤ d + 1 := by
      intro r hr
      rcases hmemL r hr with h | h
      · rw [hustab r (hInv.marked_queue r h)]
        exact hq1 r h
      · subst h; rw [huNP]
    have hq2n : ∀ r ∈ L, d ≤ u r := by
      intro r hr
      rcases hmemL r hr with h | h
      · rw [hustab r (hInv.marked_queue r h)]
        exact hq2 r h
      · subst h; rw [huNP]; omega
    have hq3n : ∀ p, u p ≠ -1 → p ∉ L → u p ≤ d + 1 := by
      intro q hq hnq
      obtain ⟨hqold, hqNP⟩ := hnotL q hnq
      rw [huneq q hqNP] at hq ⊢
      exact hq3 q hq hqold
    have hmsr : L.length + (img.size - markCountD img u) =
        s.queue.length + (img.size - markCountD img s.dist) := by
      have hlen : L.length = s.queue.length + 1 := by simp [hL]
      have hmc : markCountD img u = markCountD img s.dist + 1 :=
        markCountD_update img s.dist NP (d + 1) hNPlt hunm hdne
      have hmcle : markCountD img s.dist + 1 ≤ img.size := by
        rw [← hmc]
        exact markCountD_le img u
      rw [hlen, hmc]
      omega
    refine ⟨?_, ?_, ?_, ?_, ?_, ?_, ?_, ?_⟩
    · rw [heq]
      exact ⟨hmq, hnd, hbd, hnn, hac, hsrt, hsp, hpl, hcl⟩
    · rw [heq]
      exact hcov2
    · rw [heq]
      exact hustab
    · rw [heq]
      have hmt : u NP ≠ -1 ∧ u NP ≤ d + 1 := ⟨by rw [huNP]; exact hdne, by rw [huNP]⟩
      exact fun _ => hmt
    · rw [heq]
      exact hq1n
    · rw [heq]
      exact hq2n
    · rw [heq]
      exact hq3n
    · rw [heq]
      exact hmsr

/-- `relax_inv` lifted over the bounds-check guard of a relaxation. -/
lemma cond_relax_inv {img : Img} {t : Nat} {s : DistState} {d : Int} (c : Prop)
    [Decidable c] {u v : Nat} (hInv : DistInv img t s) (hcov : EdgeCov img s.dist)
    (hx : c → u < img.width) (hy : c → v < img.height) (dn : Nat) (hd : d = (dn : Int))
    (hprov : c → alphaAt img (v * img.width + u) ≠ 0 →
      edgeWithin img (dn + 1) (v * img.width + u) = true)
    (hq1 : ∀ r ∈ s.queue, s.dist r ≤ d + 1)
    (hq2 : ∀ r ∈ s.queue, d ≤ s.dist r)
    (hq3 : ∀ p, s.dist p ≠ -1 → p ∉ s.queue → s.dist p ≤ d + 1) :
    DistInv img t (if c then relax img d s u v else s) ∧
    EdgeCov img (if c then relax img d s u v else s).dist ∧
    (∀ q, s.dist q ≠ -1 → (if c then relax img d s u v else s).dist q = s.dist q) ∧
    (c → alphaAt img (v * img.width + u) ≠ 0 →
      (if c then relax img d s u v else s).dist (v * img.width + u) ≠ -1 ∧
      (if c then relax img d s u v else s).dist (v * img.width + u) ≤ d + 1) ∧
    (∀ r ∈ (if c then relax img d s u v else s).queue,
      (if c then relax img d s u v else s).dist r ≤ d + 1) ∧
    (∀ r ∈ (if c then relax img d s u v else s).queue,
      d ≤ (if c then relax img d s u v else s).dist r) ∧
    (∀ p, (if c then relax img d s u v else s).dist p ≠ -1 →
      p ∉ (if c then relax img d s u v else s).queue →
      (if c then relax img d s u v else s).dist p ≤ d + 1) ∧
    (if c then relax img d s u v else s).queue.length +
        (img.size - markCountD img (if c then relax img d s u v else s).dist) =
      s.queue.length + (img.size - markCountD img s.dist) := by
  by_cases hc : c
  · simp only [hc, if_true]
    obtain ⟨h1, h2, h3, h4, h5, h6, h7, h8⟩ :=
      relax_inv hInv hcov (hx hc) (hy hc) dn hd (hprov hc) hq1 hq2 hq3
    exact ⟨h1, h2, h3, fun _ => h4, h5, h6, h7, h8⟩
  · simp only [hc, if_false]
    exact ⟨hInv, hcov, fun _ _ => trivial, fun hcc => hcc.elim, hq1, hq2, hq3, trivial⟩

/-- One pop-and-expand iteration of the phase-2 BFS preserves the
invariant and edge coverage, never changes an already assigned distance,
and decreases the fuel measure by exactly one. -/
lemma distStep_inv {img : Img} {dist : Nat → Int} {p : Nat} {rest : List Nat}
    (hInv : DistInv img img.size ⟨dist, p :: rest⟩) (hcov : EdgeCov img dist) :
    DistInv img img.size (distStep img dist p rest) ∧
    EdgeCov img (distStep img dist p rest).dist ∧
    (∀ q, dist q ≠ -1 → (distStep img dist p rest).dist q = dist q) ∧
    (distStep img dist p rest).queue.length +
        (img.size - markCountD img (distStep img dist p rest).dist) =
      rest.length + (img.size - markCountD img dist) := by
  classical
  have hpq : p ∈ (⟨dist, p :: rest⟩ : DistState).queue := by simp
  have hpm : dist p ≠ -1 := hInv.marked_queue p hpq
  obtain ⟨hplt, hpop⟩ := hInv.bounds p hpm
  have hpnn : 0 ≤ dist p := hInv.nonneg p hpm
  obtain ⟨hx, hy⟩ := coords_lt hplt
  set dn := (dist p).toNat with hdn
  have hd : dist p = (dn : Int) := (Int.toNat_of_nonneg hpnn).symm
  have hach : edgeWithin img dn p = true := hInv.achieve p dn hd
  have hheadLE : ∀ r ∈ rest, dist p ≤ dist r := by
    have := (List.pairwise_cons.mp hInv.sorted).1
    exact this
  have hInv1 : DistInv img p ⟨dist, rest⟩ := by
    refine ⟨?_, ?_, hInv.bounds, hInv.nonneg, hInv.achieve, ?_, ?_, ?_, ?_⟩
    · intro q hq
      exact hInv.marked_queue q (List.mem_cons_of_mem _ hq)
    · exact (List.nodup_cons.mp hInv.nodup).2
    · exact (List.pairwise_cons.mp hInv.sorted).2
    · intro a ha b hb
      exact hInv.span a (List.mem_cons_of_mem _ ha) b (List.mem_cons_of_mem _ hb)
    · intro q hq hnq r hr
      by_cases hqp : q = p
      · subst hqp
        exact hheadLE r hr
      · refine hInv.procLE q hq ?_ r (List.mem_cons_of_mem _ hr)
        simp [List.mem_cons, hqp, hnq]
    · intro r hr hnr hnp q hadj ha
      refine hInv.closed r hr ?_ (Nat.ne_of_lt (hInv.bounds r hr).1) q hadj ha
      simp [List.mem_cons, hnp, hnr]
  have hq1A : ∀ r ∈ rest, dist r ≤ dist p + 1 := by
    intro r hr
    exact hInv.span p hpq r (List.mem_cons_of_mem _ hr)
  have hq3A : ∀ q, dist q ≠ -1 → q ∉ rest → dist q ≤ dist p + 1 := by
    intro q hq hnq
    by_cases hqp : q = p
    · subst hqp; omega
    · have : dist q ≤ dist p := by
        refine hInv.procLE q hq ?_ p hpq
        simp [List.mem_cons, hqp, hnq]
      omega
  set w := img.width
  set X := p % img.width with hX
  set Y := p / img.width with hY
  set s1 : DistState := ⟨dist, rest⟩ with hs1
  obtain ⟨i2, c2, m2, k2, a2, b2, g2, e2⟩ :=
    cond_relax_inv (s := s1) (0 < X) (u := X - 1) (v := Y) hInv1 hcov
      (fun _ => Nat.lt_of_le_of_lt (Nat.sub_le _ _) hx) (fun _ => hy) dn hd
      (fun hc hop => edgeWithin_step img
        (by simpa [Img.size] using pix_lt (Nat.lt_of_le_of_lt (Nat.sub_le _ _) hx) hy)
        hop hplt (Or.inl ⟨hc, rfl⟩) hach)
      hq1A hheadLE hq3A
  set s2 := if 0 < X then relax img (dist p) s1 (X - 1) Y else s1 with hs2
  obtain ⟨i3, c3, m3, k3, a3, b3, g3, e3⟩ :=
    cond_relax_inv (s := s2) (X + 1 < img.width) (u := X + 1) (v := Y) i2 c2
      (fun hc => hc) (fun _ => hy) dn hd
      (fun hc hop => edgeWithin_step img
        (by simpa [Img.size] using pix_lt hc hy)
        hop hplt (Or.inr (Or.inl ⟨hc, rfl⟩)) hach)
      a2 b2 g2
  set s3 := if X + 1 < img.width then relax img (dist p) s2 (X + 1) Y else s2 with hs3
  obtain ⟨i4, c4, m4, k4, a4, b4, g4, e4⟩ :=
    cond_relax_inv (s := s3) (0 < Y) (u := X) (v := Y - 1) i3 c3
      (fun _ => hx) (fun _ => Nat.lt_of_le_of_lt (Nat.sub_le _ _) hy) dn hd
      (fun hc hop => edgeWithin_step img
        (by simpa [Img.size] using pix_lt hx (Nat.lt_of_le_of_lt (Nat.sub_le _ _) hy))
        hop hplt (Or.inr (Or.inr (Or.inl ⟨hc, rfl⟩))) hach)
      a3 b3 g3
  set s4 := if 0 < Y then relax img (dist p) s3 X (Y - 1) else s3 with hs4
  obtain ⟨i5, c5, m5, k5, a5, b5, g5, e5⟩ :=
    cond_relax_inv (s := s4) (Y + 1 < img.height) (u := X) (v := Y + 1) i4 c4
      (fun _ => hx) (fun hc => hc) dn hd
      (fun hc hop => edgeWithin_step img
        (by simpa [Img.size] using pix_lt hx hc)
        hop hplt (Or.inr (Or.inr (Or.inr ⟨hc, rfl⟩))) hach)
      a4 b4 g4
  set s5 := if Y + 1 < img.height then relax img (dist p) s4 X (Y + 1) else s4 with hs5
  have hstep : distStep img dist p rest = s5 := rfl
  rw [hstep]
  have hstab : ∀ q, dist q ≠ -1 → s5.dist q = dist q := by
    intro q hq
    have h2 := m2 q hq
    have h3 := m3 q (by rw [h2]; exact hq)
    have h4 := m4 q (by rw [h3, h2]; exact hq)
    have h5 := m5 q (by rw [h4, h3, h2]; exact hq)
    rw [h5, h4, h3, h2]
  have hneigh : ∀ q, adjIdx img p q → alphaAt img q ≠ 0 →
      s5.dist q ≠ -1 ∧ s5.dist q ≤ dist p + 1 := by
    intro q hadj ha
    have hadj2 : (0 < X ∧ q = Y * img.width + (X - 1)) ∨
        (X + 1 < img.width ∧ q = Y * img.width + (X + 1)) ∨
        (0 < Y ∧ q = (Y - 1) * img.width + X) ∨
        (Y + 1 < img.height ∧ q = (Y + 1) * img.width + X) := hadj
    rcases hadj2 with ⟨hc, rfl⟩ | ⟨hc, rfl⟩ | ⟨hc, rfl⟩ | ⟨hc, rfl⟩
    · obtain ⟨hne, hle⟩ := k2 hc ha
      have h3 := m3 _ hne
      have h4 := m4 _ (by rw [h3]; exact hne)
      have h5 := m5 _ (by rw [h4, h3]; exact hne)
      rw [h5, h4, h3]
      exact ⟨hne, hle⟩
    · obtain ⟨hne, hle⟩ := k3 hc ha
      have h4 := m4 _ hne
      have h5 := m5 _ (by rw [h4]; exact hne)
      rw [h5, h4]
      exact ⟨hne, hle⟩
    · obtain ⟨hne, hle⟩ := k4 hc ha
      have h5 := m5 _ hne
      rw [h5]
      exact ⟨hne, hle⟩
    · exact k5 hc ha
  refine ⟨?_, c5, hstab, ?_⟩
  · refine ⟨i5.marked_queue, i5.nodup, i5.bounds, i5.nonneg, i5.achieve,
      i5.sorted, i5.span, i5.procLE, ?_⟩
    intro r hr hnr hnt q hadj ha
    by_cases hrp : r = p
    · subst hrp
      have hrval : s5.dist r = dist r := hstab r hpm
      obtain ⟨hne, hle⟩ := hneigh q hadj ha
      rw [hrval]
      exact ⟨hne, hle⟩
    · exact i5.closed r hr hnr hrp q hadj ha
  · rw [e5, e4, e3, e2]

/-- Running the phase-2 BFS to completion from an invariant state yields
a distance array that is achievable, nonnegative, zero on edge pixels,
and closed under opaque 4-neighbour steps. -/
lemma distLoop_post (img : Img) :
    ∀ (fuel : Nat) (s : DistState), DistInv img img.size s → EdgeCov img s.dist →
    s.queue.length + (img.size - markCountD img s.dist) ≤ fuel →
    (∀ p (dq : Nat), distLoop img fuel s p = (dq : Int) → edgeWithin img dq p = true) ∧
    (∀ p, distLoop img fuel s p ≠ -1 → 0 ≤ distLoop img fuel s p) ∧
    EdgeCov img (distLoop img fuel s) ∧
    (∀ p q, distLoop img fuel s p ≠ -1 → adjIdx img p q → alphaAt img q ≠ 0 →
      distLoop img fuel s q ≠ -1 ∧
      distLoop img fuel s q ≤ distLoop img fuel s p + 1) := by
  intro fuel
  induction fuel with
  | zero =>
    intro s hInv hcov hfuel
    have hq : s.queue = [] := List.length_eq_zero.mp (by omega)
    simp only [distLoop]
    refine ⟨hInv.achieve, hInv.nonneg, hcov, ?_⟩
    intro p q hp hadj ha
    exact hInv.closed p hp (by simp [hq]) (Nat.ne_of_lt (hInv.bounds p hp).1) q hadj ha
  | succ fuel ih =>
    intro s hInv hcov hfuel
    obtain ⟨dist, queue⟩ := s
    cases queue with
    | nil =>
      simp only [distLoop]
      refine ⟨hInv.achieve, hInv.nonneg, hcov, ?_⟩
      intro p q hp hadj ha
      exact hInv.closed p hp (by simp) (Nat.ne_of_lt (hInv.bounds p hp).1) q hadj ha
    | cons p rest =>
      obtain ⟨hInv5, hcov5, _, hmeas5⟩ := distStep_inv hInv hcov
      have hloop : distLoop img (fuel + 1) ⟨dist, p :: rest⟩ =
          distLoop img fuel (distStep img dist p rest) := rfl
      have hfuel5 : (distStep img dist p rest).queue.length +
          (img.size - markCountD img (distStep img dist p rest).dist) ≤ fuel := by
        simp only [List.length_cons] at hfuel
        omega
      obtain ⟨r1, r2, r3, r4⟩ := ih (distStep img dist p rest) hInv5 hcov5 hfuel5
      rw [hloop]
      exact ⟨r1, r2, r3, r4⟩

lemma idx_inj {w x xq y yq : Nat} (hx : x < w) (hxq : xq < w)
    (h : y * w + x = yq * w + xq) : x = xq ∧ y = yq := by
  have hw : 0 < w := Nat.lt_of_le_of_lt (Nat.zero_le x) hx
  have h1 : (y * w + x) % w = x := idx_mod hx
  have h2 : (yq * w + xq) % w = xq := idx_mod hxq
  have h3 : (y * w + x) / w = y := idx_div hw hx
  have h4 : (yq * w + xq) / w = yq := idx_div hw hxq
  rw [h] at h1 h3
  omega

/-- The invariant of the phase-2 seeding loops: every visited pixel has
distance `0`, is an opaque in-range pixel at bounded distance `0`, and is
still in the queue (nothing has been popped yet). -/
structure SeedInv (img : Img) (s : DistState) : Prop where
  marked_queue : ∀ p ∈ s.queue, s.dist p ≠ -1
  in_queue : ∀ p, s.dist p ≠ -1 → p ∈ s.queue
  nodup : s.queue.Nodup
  bounds : ∀ p, s.dist p ≠ -1 → p < img.size ∧ alphaAt img p ≠ 0
  zero : ∀ p, s.dist p ≠ -1 → s.dist p = 0
  achz : ∀ p, s.dist p ≠ -1 → edgeWithin img 0 p = true

lemma seedInv_distInv (img : Img) {s : DistState} (h : SeedInv img s) :
    DistInv img img.size s := by
  refine ⟨h.marked_queue, h.nodup, h.bounds, ?_, ?_, ?_, ?_, ?_, ?_⟩
  · intro p hp
    rw [h.zero p hp]
  · intro p dq hp
    have hne : s.dist p ≠ -1 := by rw [hp]; omega
    have h0 := h.zero p hne
    have hdq : dq = 0 := by
      rw [hp] at h0
      omega
    subst hdq
    exact h.achz p hne
  · refine List.pairwise_of_forall_mem_list ?_
    intro a ha b hb
    rw [h.zero a (h.marked_queue a ha), h.zero b (h.marked_queue b hb)]
  · intro a ha b hb
    rw [h.zero a (h.marked_queue a ha), h.zero b (h.marked_queue b hb)]
    omega
  · intro p hp hnq
    exact absurd (h.in_queue p hp) hnq
  · intro p hp hnq
    exact absurd (h.in_queue p hp) hnq

lemma seedCell_cases (img : Img) (y : Nat) (s : DistState) (x : Nat) :
    ((alphaAt img (y * img.width + x) = 0 ∨ isEdgeAt img x y = false) ∧
      seedCell img y s x = s) ∨
    (alphaAt img (y * img.width + x) ≠ 0 ∧ isEdgeAt img x y = true ∧
      seedCell img y s x =
        ⟨fun q => if q = y * img.width + x then 0 else s.dist q,
          s.queue ++ [y * img.width + x]⟩) := by
  unfold seedCell
  by_cases ha : alphaAt img (y * img.width + x) = 0
  · left
    exact ⟨Or.inl ha, by simp [ha]⟩
  · by_cases hE : isEdgeAt img x y
    · right
      exact ⟨ha, hE, by simp [ha, hE]⟩
    · left
      refine ⟨Or.inr (by simpa using hE), by simp [ha, hE]⟩

/-- Seeding one cell preserves the seeding invariant, changes no other
pixel, and marks the cell with distance `0` when it is an opaque edge
pixel. -/
lemma seedCell_spec {img : Img} {y : Nat} {s : DistState} {x : Nat}
    (hx : x < img.width) (hy : y < img.height)
    (hfresh : alphaAt img (y * img.width + x) ≠ 0 →
      s.dist (y * img.width + x) = -1)
    (hInv : SeedInv img s) :
    SeedInv img (seedCell img y s x) ∧
    (∀ q, q ≠ y * img.width + x → (seedCell img y s x).dist q = s.dist q) ∧
    (alphaAt img (y * img.width + x) ≠ 0 → isEdgeAt img x y = true →
      (seedCell img y s x).dist (y * img.width + x) = 0) := by
  classical
  rcases seedCell_cases img y s x with ⟨hcond, heq⟩ | ⟨ha, hE, heq⟩
  · rw [heq]
    refine ⟨hInv, fun _ _ => rfl, ?_⟩
    intro hop hEE
    rcases hcond with h | h
    · exact absurd h hop
    · rw [hEE] at h
      exact absurd h (by simp)
  · set P := y * img.width + x with hP
    have hPlt : P < img.size := by
      have := pix_lt hx hy
      simpa [Img.size, hP] using this
    have hw : 0 < img.width := Nat.lt_of_le_of_lt (Nat.zero_le x) hx
    have hPfresh : s.dist P = -1 := hfresh ha
    have hPnq : P ∉ s.queue := by
      intro hc
      exact (hInv.marked_queue P hc) hPfresh
    set u : Nat → Int := fun q => if q = P then 0 else s.dist q with hu
    have huneq : ∀ q, q ≠ P → u q = s.dist q := by
      intro q hq
      simp [hu, hq]
    have huP : u P = 0 := by simp [hu]
    have hmarked : ∀ q, u q ≠ -1 → q = P ∨ s.dist q ≠ -1 := by
      intro q hq
      by_cases hqP : q = P
      · exact Or.inl hqP
      · rw [huneq q hqP] at hq
        exact Or.inr hq
    have f1 : ∀ q ∈ s.queue ++ [P], u q ≠ -1 := by
      intro q hq
      rcases List.mem_append.mp hq with h | h
      · have hm := hInv.marked_queue q h
        have hne : q ≠ P := fun hc => hm (hc ▸ hPfresh)
        rw [huneq q hne]
        exact hm
      · simp only [List.mem_singleton] at h
        subst h
        rw [huP]
        omega
    have f2 : ∀ q, u q ≠ -1 → q ∈ s.queue ++ [P] := by
      intro q hq
      rcases hmarked q hq with h | h
      · subst h
        exact List.mem_append_right _ (List.mem_singleton.mpr rfl)
      · exact List.mem_append_left _ (hInv.in_queue q h)
    have f3 : (s.queue ++ [P]).Nodup := by
      simp [List.nodup_append, hInv.nodup, hPnq]
    have f4 : ∀ q, u q ≠ -1 → q < img.size ∧ alphaAt img q ≠ 0 := by
      intro q hq
      by_cases hqP : q = P
      · subst hqP
        exact ⟨hPlt, ha⟩
      · rw [huneq q hqP] at hq
        exact hInv.bounds q hq
    have f5 : ∀ q, u q ≠ -1 → u q = 0 := by
      intro q hq
      by_cases hqP : q = P
      · subst hqP
        exact huP
      · rw [huneq q hqP] at hq ⊢
        exact hInv.zero q hq
    have f6 : ∀ q, u q ≠ -1 → edgeWithin img 0 q = true := by
      intro q hq
      by_cases hqP : q = P
      · subst hqP
        rw [edgeWithin_zero_iff]
        refine ⟨hPlt, ha, ?_⟩
        rw [hP, idx_mod hx, idx_div hw hx]
        exact hE
      · rw [huneq q hqP] at hq
        exact hInv.achz q hq
    have hnew : SeedInv img ⟨u, s.queue ++ [P]⟩ := ⟨f1, f2, f3, f4, f5, f6⟩
    refine ⟨?_, ?_, ?_⟩
    · rw [heq]
      exact hnew
    · rw [heq]
      exact huneq
    · rw [heq]
      intro _ _
      exact huP

/-- Seeding one row: invariant preserved, other pixels untouched, every
opaque edge pixel of the processed columns marked with distance `0`. -/
lemma seedRow (img : Img) (y : Nat) (hy : y < img.height) :
    ∀ (l : List Nat) (s : DistState), (∀ x ∈ l, x < img.width) → l.Nodup →
    (∀ x ∈ l, alphaAt img (y * img.width + x) ≠ 0 →
      s.dist (y * img.width + x) = -1) →
    SeedInv img s →
    SeedInv img (l.foldl (seedCell img y) s) ∧
    (∀ q, (∀ x ∈ l, q ≠ y * img.width + x) →
      (l.foldl (seedCell img y) s).dist q = s.dist q) ∧
    (∀ x ∈ l, alphaAt img (y * img.width + x) ≠ 0 → isEdgeAt img x y = true →
      (l.foldl (seedCell img y) s).dist (y * img.width + x) = 0) := by
  intro l
  induction l with
  | nil =>
    intro s _ _ _ hInv
    exact ⟨hInv, fun q _ => rfl, by simp⟩
  | cons a l ihl =>
    intro s hl hnd hfresh hInv
    have ha : a < img.width := hl a (List.mem_cons_self a l)
    have hanl : a ∉ l := (List.nodup_cons.mp hnd).1
    obtain ⟨iA, stabA, covA⟩ :=
      seedCell_spec ha hy (hfresh a (List.mem_cons_self a l)) hInv
    have hfresh2 : ∀ x ∈ l, alphaAt img (y * img.width + x) ≠ 0 →
        (seedCell img y s a).dist (y * img.width + x) = -1 := by
      intro x hx hop
      have hxa : x ≠ a := fun hc => hanl (hc ▸ hx)
      have hne : y * img.width + x ≠ y * img.width + a := by omega
      rw [stabA _ hne]
      exact hfresh x (List.mem_cons_of_mem _ hx) hop
    obtain ⟨r1, r2, r3⟩ := ihl (seedCell img y s a)
      (fun x hx => hl x (List.mem_cons_of_mem _ hx))
      (List.nodup_cons.mp hnd).2 hfresh2 iA
    have hfold : (a :: l).foldl (seedCell img y) s =
        l.foldl (seedCell img y) (seedCell img y s a) := rfl
    rw [hfold]
    refine ⟨r1, ?_, ?_⟩
    · intro q hq
      rw [r2 q (fun x hx => hq x (List.mem_cons_of_mem _ hx)),
        stabA q (hq a (List.mem_cons_self a l))]
    · intro x hx hop hE
      rcases List.mem_cons.mp hx with hxa | hxl
      · subst hxa
        have hqstab : ∀ xq ∈ l, y * img.width + x ≠ y * img.width + xq := by
          intro xq hxq
          have : x ≠ xq := fun hc => hanl (hc ▸ hxq)
          omega
        rw [r2 _ hqstab]
        exact covA hop hE
      · exact r3 x hxl hop hE

/-- Seeding all rows: invariant preserved, untouched pixels keep their
distance, and every opaque edge pixel of the processed rows is marked. -/
lemma seedRows (img : Img) :
    ∀ (ys : List Nat) (s : DistState), (∀ yy ∈ ys, yy < img.height) → ys.Nodup →
    (∀ yy ∈ ys, ∀ x, x < img.width → alphaAt img (yy * img.width + x) ≠ 0 →
      s.dist (yy * img.width + x) = -1) →
    SeedInv img s →
    SeedInv img (ys.foldl (fun s yy => (List.range img.width).foldl (seedCell img yy) s) s) ∧
    (∀ q, (∀ yy ∈ ys, ∀ x, x < img.width → q ≠ yy * img.width + x) →
      (ys.foldl (fun s yy => (List.range img.width).foldl (seedCell img yy) s) s).dist q
        = s.dist q) ∧
    (∀ yy ∈ ys, ∀ x, x < img.width → alphaAt img (yy * img.width + x) ≠ 0 →
      isEdgeAt img x yy = true →
      (ys.foldl (fun s yy => (List.range img.width).foldl (seedCell img yy) s) s).dist
        (yy * img.width + x) = 0) := by
  intro ys
  induction ys with
  | nil =>
    intro s _ _ _ hInv
    exact ⟨hInv, fun q _ => rfl, by simp⟩
  | cons a ys ihy =>
    intro s hys hnd hfresh hInv
    have ha : a < img.height := hys a (List.mem_cons_self a ys)
    have hanl : a ∉ ys := (List.nodup_cons.mp hnd).1
    obtain ⟨iA, stabA, covA⟩ := seedRow img a ha (List.range img.width) s
      (fun x hx => List.mem_range.mp hx) (List.nodup_range _)
      (fun x hx hop => hfresh a (List.mem_cons_self a ys) x (List.mem_range.mp hx) hop)
      hInv
    have hfresh2 : ∀ yy ∈ ys, ∀ x, x < img.width →
        alphaAt img (yy * img.width + x) ≠ 0 →
        ((List.range img.width).foldl (seedCell img a) s).dist (yy * img.width + x) = -1 := by
      intro yy hyy x hx hop
      have hne : ∀ xq ∈ List.range img.width, yy * img.width + x ≠ a * img.width + xq := by
        intro xq hxq hc
        obtain ⟨_, hya⟩ := idx_inj hx (List.mem_range.mp hxq) hc
        exact hanl (hya ▸ hyy)
      rw [stabA _ hne]
      exact hfresh yy (List.mem_cons_of_mem _ hyy) x hx hop
    obtain ⟨r1, r2, r3⟩ := ihy ((List.range img.width).foldl (seedCell img a) s)
      (fun yy hyy => hys yy (List.mem_cons_of_mem _ hyy))
      (List.nodup_cons.mp hnd).2 hfresh2 iA
    have hfold : (a :: ys).foldl
        (fun s yy => (List.range img.width).foldl (seedCell img yy) s) s =
      ys.foldl (fun s yy => (List.range img.width).foldl (seedCell img yy) s)
        ((List.range img.width).foldl (seedCell img a) s) := rfl
    rw [hfold]
    refine ⟨r1, ?_, ?_⟩
    · intro q hq
      rw [r2 q (fun yy hyy x hx => hq yy (List.mem_cons_of_mem _ hyy) x hx),
        stabA q ?_]
      intro x hx
      exact hq a (List.mem_cons_self a ys) x (List.mem_range.mp hx)
    · intro yy hyy x hx hop hE
      rcases List.mem_cons.mp hyy with hya | hyl
      · subst hya
        have hcell := covA x (List.mem_range.mpr hx) hop hE
        have hsurv : ∀ y2 ∈ ys, ∀ xq, xq < img.width →
            yy * img.width + x ≠ y2 * img.width + xq := by
          intro y2 hy2 xq hxq hc
          obtain ⟨_, hya2⟩ := idx_inj hx hxq hc
          exact hanl (hya2 ▸ hy2)
        rw [r2 _ hsurv]
        exact hcell
      · exact r3 yy hyl x hx hop hE

/-- The fully seeded state of phase 2: seeding invariant plus coverage of
every opaque edge pixel. -/
lemma seedEdges_spec (img : Img) :
    SeedInv img (seedEdges img) ∧ EdgeCov img (seedEdges img).dist := by
  have hInv0 : SeedInv img ⟨fun _ => -1, []⟩ := by
    refine ⟨?_, ?_, List.nodup_nil, ?_, ?_, ?_⟩ <;> intro p hp <;> simp at hp
  obtain ⟨r1, _, r3⟩ := seedRows img (List.range img.height) ⟨fun _ => -1, []⟩
    (fun yy hyy => List.mem_range.mp hyy) (List.nodup_range _)
    (fun _ _ _ _ _ => rfl) hInv0
  refine ⟨r1, ?_⟩
  intro p hp hop hedge
  obtain ⟨hx, hy⟩ := coords_lt hp
  have hrec : (p / img.width) * img.width + p % img.width = p := coord_recon
  have := r3 (p / img.width) (List.mem_range.mpr hy) (p % img.width) hx
    (by rw [hrec]; exact hop) hedge
  rw [hrec] at this
  exact this

lemma queue_len_le_markCountD (img : Img) {s : DistState}
    (hInv : DistInv img img.size s) : s.queue.length ≤ markCountD img s.dist := by
  classical
  have hcard : s.queue.toFinset.card = s.queue.length :=
    List.toFinset_card_of_nodup hInv.nodup
  have hsub : s.queue.toFinset ⊆
      (Finset.range img.size).filter (fun p => s.dist p ≠ -1) := by
    intro q hq
    have hqmem : q ∈ s.queue := List.mem_toFinset.mp hq
    have hmark := hInv.marked_queue q hqmem
    have hb := hInv.bounds q hmark
    simp [Finset.mem_filter, Finset.mem_range, hb.1, hmark]
  calc s.queue.length = s.queue.toFinset.card := hcard.symm
    _ ≤ ((Finset.range img.size).filter (fun p => s.dist p ≠ -1)).card :=
        Finset.card_le_card hsub
    _ = markCountD img s.dist := rfl

/-- The finished `dist` array of phase 2: achievable, nonnegative, zero on
edge pixels, and closed under opaque 4-neighbour steps. -/
lemma edgeDist_spec (img : Img) :
    (∀ p (dq : Nat), edgeDist img p = (dq : Int) → edgeWithin img dq p = true) ∧
    (∀ p, edgeDist img p ≠ -1 → 0 ≤ edgeDist img p) ∧
    EdgeCov img (edgeDist img) ∧
    (∀ p q, edgeDist img p ≠ -1 → adjIdx img p q → alphaAt img q ≠ 0 →
      edgeDist img q ≠ -1 ∧ edgeDist img q ≤ edgeDist img p + 1) := by
  obtain ⟨hseed, hcov⟩ := seedEdges_spec img
  have hInv := seedInv_distInv img hseed
  have hmeas : (seedEdges img).queue.length +
      (img.size - markCountD img (seedEdges img).dist) ≤ img.size := by
    have h1 := queue_len_le_markCountD img hInv
    have h2 := markCountD_le img (seedEdges img).dist
    omega
  exact distLoop_post img img.size (seedEdges img) hInv hcov hmeas

/-- Completeness with minimality: a pixel within bounded distance `n` of
the edge set has a BFS distance, and that distance is at most `n`. -/
lemma edgeDist_complete (img : Img) :
    ∀ (n : Nat) (p : Nat), edgeWithin img n p = true →
    edgeDist img p ≠ -1 ∧ edgeDist img p ≤ (n : Int) := by
  obtain ⟨hach, hnn, hcov, hcl⟩ := edgeDist_spec img
  intro n
  induction n with
  | zero =>
    intro p hp
    obtain ⟨h1, h2, h3⟩ := (edgeWithin_zero_iff img p).mp hp
    have h0 := hcov p h1 h2 h3
    rw [h0]
    exact ⟨by omega, by omega⟩
  | succ n ihn =>
    intro p hp
    unfold edgeWithin at hp
    rcases Bool.or_eq_true_iff.mp hp with h | h
    · obtain ⟨h1, h2⟩ := ihn p h
      refine ⟨h1, le_trans h2 ?_⟩
      omega
    · simp only [Bool.and_eq_true, decide_eq_true_eq, List.any_eq_true] at h
      obtain ⟨⟨hplt, hpop⟩, q, hqr, hadj, hqw⟩ := h
      obtain ⟨h1, h2⟩ := ihn q hqw
      obtain ⟨h3, h4⟩ := hcl q p h1 hadj hpop
      refine ⟨h3, ?_⟩
      have : (n : Int) + 1 = ((n + 1 : Nat) : Int) := by omega
      omega

/-- Every opaque in-range pixel has a bounded-distance witness: walk
straight up; each non-edge pixel has an opaque pixel above it. -/
lemma opaque_edgeWithin (img : Img) :
    ∀ (y x : Nat), x < img.width → y < img.height →
    alphaAt img (y * img.width + x) ≠ 0 →
    edgeWithin img y (y * img.width + x) = true := by
  intro y
  induction y with
  | zero =>
    intro x hx hy hop
    by_cases hE : isEdgeAt img x 0
    · rw [edgeWithin_zero_iff]
      have hw : 0 < img.width := Nat.lt_of_le_of_lt (Nat.zero_le x) hx
      refine ⟨?_, hop, ?_⟩
      · simpa [Img.size] using pix_lt hx hy
      · rw [idx_mod hx, idx_div hw hx]
        exact hE
    · exfalso
      apply hE
      unfold isEdgeAt
      rw [List.any_eq_true]
      refine ⟨(0, -1), by simp [edgeOffsets], ?_⟩
      simp
  | succ n ihn =>
    intro x hx hy hop
    have hw : 0 < img.width := Nat.lt_of_le_of_lt (Nat.zero_le x) hx
    by_cases hE : isEdgeAt img x (n + 1)
    · refine edgeWithin_mono img (Nat.zero_le _) ?_
      rw [edgeWithin_zero_iff]
      refine ⟨?_, hop, ?_⟩
      · simpa [Img.size] using pix_lt hx hy
      · rw [idx_mod hx, idx_div hw hx]
        exact hE
    · have hup : alphaAt img (n * img.width + x) ≠ 0 := by
        intro hc
        apply hE
        unfold isEdgeAt
        rw [List.any_eq_true]
        refine ⟨(0, -1), by simp [edgeOffsets], ?_⟩
        have hb : ¬((x : Int) + 0 < 0 ∨ ((n + 1 : Nat) : Int) + (-1) < 0 ∨
            (img.width : Int) ≤ (x : Int) + 0 ∨
            (img.height : Int) ≤ ((n + 1 : Nat) : Int) + (-1)) := by
          push_neg
          refine ⟨by omega, by omega, by omega, by omega⟩
        simp only [if_neg hb]
        have hxa : ((x : Int) + 0).toNat = x := by omega
        have hya : (((n + 1 : Nat) : Int) + (-1)).toNat = n := by omega
        rw [hxa, hya]
        simp [hc]
      have hstep := ihn x hx (by omega) hup
      refine edgeWithin_mono img (le_refl _) ?_
      have hT : (n + 1) * img.width + x < img.size := by
        simpa [Img.size] using pix_lt hx hy
      have hpin : n * img.width + x < img.size := by
        have : n < img.height := by omega
        simpa [Img.size] using pix_lt hx this
      have hadj : adjIdx img (n * img.width + x) ((n + 1) * img.width + x) := by
        refine Or.inr (Or.inr (Or.inr ?_))
        rw [idx_mod hx, idx_div hw hx]
        exact ⟨by omega, rfl⟩
      exact edgeWithin_step img hT hop hpin hadj hstep

/-! ### Pixel-level characterisation of the two phases -/

lemma mod4_3 (p : Nat) : (p * 4 + 3) % 4 = 3 := by omega

lemma div4_c {p c : Nat} (hc : c < 4) : (p * 4 + c) / 4 = p := by omega

lemma size_pos_wh {img : Img} {p : Nat} (hp : p < img.size) :
    0 < img.width ∧ 0 < img.height := by
  constructor
  · rcases Nat.eq_zero_or_pos img.width with h | h
    · exfalso
      have : img.size = 0 := by simp [Img.size, h]
      omega
    · exact h
  · rcases Nat.eq_zero_or_pos img.height with h | h
    · exfalso
      have : img.size = 0 := by simp [Img.size, h]
      omega
    · exact h

lemma fillHoles_size (img : Img) : (fillHoles img).size = img.size := rfl

lemma fillHoles_alpha_of_opaque (img : Img) (p : Nat)
    (ha : alphaAt img p ≠ 0) : alphaAt (fillHoles img) p = alphaAt img p := by
  unfold fillHoles alphaAt
  simp only [div4_c (by omega : (3 : Nat) < 4)]
  rw [if_neg]
  intro hcond
  exact ha hcond.2.1

/-! ### Claim theorems for the alpha normalisation -/

/-- C1: phase 1 of the alpha normalisation forces every `alpha = 0` pixel
with no 4-connected transparent path to the canvas border to exactly
`(255,255,255,255)`, while every border-reachable `alpha = 0` pixel keeps
alpha `0` and its RGB values unchanged. -/
theorem C1_phase1_hole_fill (img : Img) (p : Nat) (hp : p < img.size)
    (ha : alphaAt img p = 0) :
    (¬ BorderReach img p → ∀ c, c < 4 → (fillHoles img).data (p * 4 + c) = 255) ∧
    (BorderReach img p → alphaAt (fillHoles img) p = 0 ∧
      (∀ c, c < 4 → (fillHoles img).data (p * 4 + c) = img.data (p * 4 + c))) := by
  obtain ⟨hw, hh⟩ := size_pos_wh hp
  constructor
  · intro hnr c hc
    have hm : backgroundMask img p = false := by
      by_cases hb : backgroundMask img p = true
      · exact absurd ((backgroundMask_iff img hw hh p).mp hb) hnr
      · simpa using hb
    unfold fillHoles
    simp only [div4_c hc]
    rw [if_pos ⟨hp, ha, hm⟩]
  · intro hr
    have hm : backgroundMask img p = true := (backgroundMask_iff img hw hh p).mpr hr
    have hd : ∀ c, c < 4 → (fillHoles img).data (p * 4 + c) = img.data (p * 4 + c) := by
      intro c hc
      unfold fillHoles
      simp only [div4_c hc]
      rw [if_neg]
      intro hcond
      rw [hm] at hcond
      exact absurd hcond.2.2 (by simp)
    refine ⟨?_, hd⟩
    show (fillHoles img).data (p * 4 + 3) = 0
    rw [hd 3 (by omega)]
    exact ha

/-- C2: after phase 2 of the alpha normalisation, every `alpha > 0` pixel
of the phase-1 image whose 4-connected BFS distance through `alpha > 0`
pixels to the nearest edge pixel exceeds the threshold `2` has alpha
exactly `255`, and every `alpha > 0` pixel within distance `2` keeps the
alpha it had after phase 1.  (`edgeWithin img1 2 p` decides whether the
distance is at most `2`.) -/
theorem C2_phase2_edge_clamp (img : Img) (p : Nat) (hp : p < img.size)
    (ha : alphaAt (fillHoles img) p ≠ 0) :
    (edgeWithin (fillHoles img) 2 p ≠ true →
      alphaAt (makeInteriorOpaque img) p = 255) ∧
    (edgeWithin (fillHoles img) 2 p = true →
      alphaAt (makeInteriorOpaque img) p = alphaAt (fillHoles img) p) := by
  have hp1 : p < (fillHoles img).size := hp
  obtain ⟨hx, hy⟩ := coords_lt hp1
  obtain ⟨hach, hnn, hcov, hcl⟩ := edgeDist_spec (fillHoles img)
  constructor
  · intro hnw
    have hopc : alphaAt (fillHoles img)
        ((p / (fillHoles img).width) * (fillHoles img).width +
          p % (fillHoles img).width) ≠ 0 := by
      rw [coord_recon]
      exact ha
    have hwalk := opaque_edgeWithin (fillHoles img)
      (p / (fillHoles img).width) (p % (fillHoles img).width) hx hy hopc
    rw [coord_recon] at hwalk
    obtain ⟨hne, _⟩ := edgeDist_complete (fillHoles img) _ p hwalk
    have h0 := hnn p hne
    have hdn : edgeDist (fillHoles img) p =
        (((edgeDist (fillHoles img) p).toNat : Nat) : Int) :=
      (Int.toNat_of_nonneg h0).symm
    have hwn := hach p (edgeDist (fillHoles img) p).toNat hdn
    have h3 : (2 : Int) < edgeDist (fillHoles img) p := by
      by_contra hle
      push_neg at hle
      have hle2 : (edgeDist (fillHoles img) p).toNat ≤ 2 := by omega
      exact hnw (edgeWithin_mono (fillHoles img) hle2 hwn)
    show (clampInterior (fillHoles img)).data (p * 4 + 3) = 255
    unfold clampInterior
    simp only [mod4_3, div4_c (show (3 : Nat) < 4 by omega)]
    rw [if_pos]
    exact ⟨trivial, hp1, ha, by simpa [KEEP_EDGE_PX] using h3⟩
  · intro hw2
    obtain ⟨hne, hle⟩ := edgeDist_complete (fillHoles img) 2 p hw2
    show (clampInterior (fillHoles img)).data (p * 4 + 3) = alphaAt (fillHoles img) p
    unfold clampInterior
    simp only [mod4_3, div4_c (show (3 : Nat) < 4 by omega)]
    rw [if_neg]
    · rfl
    · intro hcond
      have h2 := hcond.2.2.2
      unfold KEEP_EDGE_PX at h2
      have : ((2 : Nat) : Int) = 2 := by omega
      omega

/-- C9: the alpha normalisation preserves the image dimensions, never
decreases any pixel alpha, changes RGB channels only at enclosed
`alpha = 0` holes, and paints those holes white. -/
theorem C9_normalise_frame (img : Img) (hdata : ∀ i, img.data i ≤ 255) :
    (makeInteriorOpaque img).width = img.width ∧
    (makeInteriorOpaque img).height = img.height ∧
    (∀ p, alphaAt img p ≤ alphaAt (makeInteriorOpaque img) p) ∧
    (∀ p, p < img.size → ∀ c, c < 3 →
      ¬(alphaAt img p = 0 ∧ ¬ BorderReach img p) →
      (makeInteriorOpaque img).data (p * 4 + c) = img.data (p * 4 + c)) ∧
    (∀ p, p < img.size → ∀ c, c < 3 →
      alphaAt img p = 0 → ¬ BorderReach img p →
      (makeInteriorOpaque img).data (p * 4 + c) = 255) := by
  refine ⟨rfl, rfl, ?_, ?_, ?_⟩
  · intro p
    show img.data (p * 4 + 3) ≤ (clampInterior (fillHoles img)).data (p * 4 + 3)
    have hb := hdata (p * 4 + 3)
    unfold clampInterior fillHoles alphaAt
    dsimp only
    split_ifs <;> omega
  · intro p hp c hc hnen
    obtain ⟨hw, hh⟩ := size_pos_wh hp
    have hc3 : (p * 4 + c) % 4 ≠ 3 := by omega
    show (clampInterior (fillHoles img)).data (p * 4 + c) = img.data (p * 4 + c)
    unfold clampInterior
    dsimp only
    rw [if_neg (fun hcond => hc3 hcond.1)]
    unfold fillHoles
    dsimp only
    rw [if_neg]
    intro hcond
    have hdv : (p * 4 + c) / 4 = p := div4_c (by omega)
    rw [hdv] at hcond
    refine hnen ⟨hcond.2.1, ?_⟩
    intro hr
    have hm : backgroundMask img p = true := (backgroundMask_iff img hw hh p).mpr hr
    rw [hm] at hcond
    exact absurd hcond.2.2 (by simp)
  · intro p hp c hc ha hnr
    obtain ⟨hw, hh⟩ := size_pos_wh hp
    have hc3 : (p * 4 + c) % 4 ≠ 3 := by omega
    have hm : backgroundMask img p = false := by
      by_cases hb : backgroundMask img p = true
      · exact absurd ((backgroundMask_iff img hw hh p).mp hb) hnr
      · simpa using hb
    show (clampInterior (fillHoles img)).data (p * 4 + c) = 255
    unfold clampInterior
    dsimp only
    rw [if_neg (fun hcond => hc3 hcond.1)]
    unfold fillHoles
    dsimp only
    rw [div4_c (by omega : c < 4), if_pos ⟨hp, ha, hm⟩]

/-! ### Concrete rasters for the claim witnesses -/

/-- A 3x3 raster whose centre pixel is transparent (an enclosed hole),
whose top-left corner is transparent (border background), and whose other
pixels are opaque with RGB value 100. -/
def img3 : Img :=
  ⟨3, 3, fun i => if i % 4 = 3 then (if i / 4 = 4 ∨ i / 4 = 0 then 0 else 255) else 100⟩

/-- A 7x7 raster with every pixel at the anti-aliased alpha 200 and RGB
value 50; its centre is at BFS distance 3 from the canvas border. -/
def img7 : Img := ⟨7, 7, fun i => if i % 4 = 3 then 200 else 50⟩

/-- Witness for C1: on `img3` the enclosed centre hole is painted
opaque white and the border-connected corner keeps its data. -/
theorem C1_phase1_hole_fill_witness :
    (fillHoles img3).data (4 * 4 + 3) = 255 ∧
    (fillHoles img3).data (0 * 4 + 3) = img3.data (0 * 4 + 3) := by
  constructor
  · exact (C1_phase1_hole_fill img3 4 (by decide) (by decide)).1
      (fun hr => absurd ((backgroundMask_iff img3 (by decide) (by decide) 4).mpr hr)
        (by decide))
      3 (by decide)
  · exact ((C1_phase1_hole_fill img3 0 (by decide) (by decide)).2
      ((backgroundMask_iff img3 (by decide) (by decide) 0).mp (by decide))).2 3 (by decide)

/-- Witness for C2: on `img7` the centre pixel (distance 3) is clamped to
alpha 255 and the pixel at distance 1 keeps its phase-1 alpha. -/
theorem C2_phase2_edge_clamp_witness :
    alphaAt (makeInteriorOpaque img7) 24 = 255 ∧
    alphaAt (makeInteriorOpaque img7) 8 = alphaAt (fillHoles img7) 8 := by
  constructor
  · exact (C2_phase2_edge_clamp img7 24 (by decide) (by decide)).1 (by decide)
  · exact (C2_phase2_edge_clamp img7 8 (by decide) (by decide)).2 (by decide)

/-- Witness for C9: on `img3` alpha never decreases and the RGB of an
opaque pixel is unchanged. -/
theorem C9_normalise_frame_witness :
    alphaAt img3 4 ≤ alphaAt (makeInteriorOpaque img3) 4 ∧
    (makeInteriorOpaque img3).data (1 * 4 + 0) = img3.data (1 * 4 + 0) := by
  have hdata : ∀ i, img3.data i ≤ 255 := by
    intro i
    unfold img3
    dsimp only
    split_ifs <;> omega
  constructor
  · exact (C9_normalise_frame img3 hdata).2.2.1 4
  · refine (C9_normalise_frame img3 hdata).2.2.2.1 1 (by decide) 0 (by decide) ?_
    intro hcon
    exact absurd hcon.1 (by decide)

/-! ### ContainResizer — `resizeContainBilinear`

JavaScript numbers are IEEE doubles; the arithmetic of the resizer is
modelled with exact rationals.  `v | 0` truncates toward zero. -/

/-- JavaScript `v | 0` (truncation toward zero) on an exact rational. -/
def jsOr0 (v : ℚ) : Int := v.num / v.den

/-- The `clamp` helper of `resizeContainBilinear`:
`Math.max(lo, Math.min(hi, v))`. -/
def jsClamp (v lo hi : Int) : Int := max lo (min hi v)

/-- `scale = Math.min(dstW / srcW, dstH / srcH)` — contain semantics. -/
def containScale (src : Img) (dstW dstH : Nat) : ℚ :=
  min ((dstW : ℚ) / (src.width : ℚ)) ((dstH : ℚ) / (src.height : ℚ))

/-- `offX = (dstW - drawW) / 2` with `drawW = srcW * scale`. -/
def containOffX (src : Img) (dstW dstH : Nat) : ℚ :=
  ((dstW : ℚ) - (src.width : ℚ) * containScale src dstW dstH) / 2

/-- `offY = (dstH - drawH) / 2` with `drawH = srcH * scale`. -/
def containOffY (src : Img) (dstW dstH : Nat) : ℚ :=
  ((dstH : ℚ) - (src.height : ℚ) * containScale src dstW dstH) / 2

/-- Inverse-mapped source x coordinate `sx = (x - offX) / scale`. -/
def srcX (src : Img) (dstW dstH x : Nat) : ℚ :=
  ((x : ℚ) - containOffX src dstW dstH) / containScale src dstW dstH

/-- Inverse-mapped source y coordinate `sy = (y - offY) / scale`. -/
def srcY (src : Img) (dstW dstH y : Nat) : ℚ :=
  ((y : ℚ) - containOffY src dstW dstH) / containScale src dstW dstH

/-- The `continue` guard: the inverse map lands outside
`[0, srcW-1] x [0, srcH-1]`. -/
def outOfRange (src : Img) (sx sy : ℚ) : Prop :=
  sx < 0 ∨ sy < 0 ∨ sx > (src.width : ℚ) - 1 ∨ sy > (src.height : ℚ) - 1

instance (src : Img) (sx sy : ℚ) : Decidable (outOfRange src sx sy) := by
  unfold outOfRange; infer_instance

/-- Bilinear interpolation of channel `c` at source coordinate
`(sx, sy)` from the four nearest source pixels, exactly as the code
computes it (`x1`, `y1` clamp to the final valid index). -/
def bilinear (src : Img) (sx sy : ℚ) (c : Nat) : ℚ :=
  let x0 : Int := Int.floor sx
  let y0 : Int := Int.floor sy
  let x1 : Int := jsClamp (x0 + 1) 0 ((src.width : Int) - 1)
  let y1 : Int := jsClamp (y0 + 1) 0 ((src.height : Int) - 1)
  let tx : ℚ := sx - (x0 : ℚ)
  let ty : ℚ := sy - (y0 : ℚ)
  let p00 := (y0.toNat * src.width + x0.toNat) * 4
  let p10 := (y0.toNat * src.width + x1.toNat) * 4
  let p01 := (y1.toNat * src.width + x0.toNat) * 4
  let p11 := (y1.toNat * src.width + x1.toNat) * 4
  let v00 : ℚ := (src.data (p00 + c) : ℚ)
  let v10 : ℚ := (src.data (p10 + c) : ℚ)
  let v01 : ℚ := (src.data (p01 + c) : ℚ)
  let v11 : ℚ := (src.data (p11 + c) : ℚ)
  let v0 := v00 * (1 - tx) + v10 * tx
  let v1 := v01 * (1 - tx) + v11 * tx
  v0 * (1 - ty) + v1 * ty

/-- `resizeContainBilinear`: a `dstW x dstH` canvas zero-filled
(`dst.data.fill(0)`); every destination pixel whose inverse map lands in
source bounds receives the truncated bilinear sample of each channel. -/
def resizeContainBilinear (src : Img) (dstW dstH : Nat) : Img where
  width := dstW
  height := dstH
  data := fun i =>
    let p := i / 4
    let c := i % 4
    let x := p % dstW
    let y := p / dstW
    if p < dstW * dstH then
      if outOfRange src (srcX src dstW dstH x) (srcY src dstW dstH y) then 0
      else (jsOr0 (bilinear src (srcX src dstW dstH x) (srcY src dstW dstH y) c)).toNat
    else 0

lemma mod4_c {p c : Nat} (hc : c < 4) : (p * 4 + c) % 4 = c := by omega

/-- Channel value of the resized image at destination pixel `(x, y)`. -/
lemma resize_data_eq (src : Img) (dstW dstH : Nat) {x y c : Nat}
    (hx : x < dstW) (hy : y < dstH) (hc : c < 4) :
    (resizeContainBilinear src dstW dstH).data ((y * dstW + x) * 4 + c) =
      if outOfRange src (srcX src dstW dstH x) (srcY src dstW dstH y) then 0
      else (jsOr0 (bilinear src (srcX src dstW dstH x)
        (srcY src dstW dstH y) c)).toNat := by
  have hw : 0 < dstW := Nat.lt_of_le_of_lt (Nat.zero_le x) hx
  unfold resizeContainBilinear
  dsimp only
  rw [div4_c hc, mod4_c hc, idx_mod hx, idx_div hw hx, if_pos (pix_lt hx hy)]

/-- A fully opaque white 4x4 source raster. -/
def white4 : Img := ⟨4, 4, fun _ => 255⟩

lemma containScale_white4 : containScale white4 8 2 = 1 / 2 := by
  rw [containScale]
  norm_num [white4]

lemma containOffX_white4 : containOffX white4 8 2 = 3 := by
  rw [containOffX, containScale_white4]
  norm_num [white4]

lemma containOffY_white4 : containOffY white4 8 2 = 0 := by
  rw [containOffY, containScale_white4]
  norm_num [white4]

lemma srcX_white4 (x : Nat) : srcX white4 8 2 x = 2 * (x : ℚ) - 6 := by
  rw [srcX, containOffX_white4, containScale_white4]
  field_simp
  ring

lemma srcY_white4 (y : Nat) : srcY white4 8 2 y = 2 * (y : ℚ) := by
  rw [srcY, containOffY_white4, containScale_white4]
  field_simp
  ring

lemma bilinear_white4 (sx sy : ℚ) (c : Nat) : bilinear white4 sx sy c = 255 := by
  simp only [bilinear, white4]
  push_cast
  ring

/-- C3: `resizeContainBilinear` returns an image of exactly the target
size; destination pixels whose inverse-mapped source coordinate falls
outside `[0, W-1] x [0, H-1]` have all channels `0`; in-range channels
are the bilinear interpolation truncated (not rounded) to an integer;
and the white 4x4 source resized into 8x2 yields a 2x2 drawn region at
x-offset 3 and y-offset 0 with the 12 outside pixels at alpha 0. -/
theorem C3_resize_contain (src : Img) (dstW dstH : Nat) :
    (resizeContainBilinear src dstW dstH).width = dstW ∧
    (resizeContainBilinear src dstW dstH).height = dstH ∧
    (∀ x y c, x < dstW → y < dstH → c < 4 →
      outOfRange src (srcX src dstW dstH x) (srcY src dstW dstH y) →
      (resizeContainBilinear src dstW dstH).data ((y * dstW + x) * 4 + c) = 0) ∧
    (∀ x y c, x < dstW → y < dstH → c < 4 →
      ¬ outOfRange src (srcX src dstW dstH x) (srcY src dstW dstH y) →
      (resizeContainBilinear src dstW dstH).data ((y * dstW + x) * 4 + c) =
        (jsOr0 (bilinear src (srcX src dstW dstH x)
          (srcY src dstW dstH y) c)).toNat) ∧
    (∀ x, x < 8 → ∀ y, y < 2 → ∀ c, c < 4 →
      ((3 ≤ x ∧ x ≤ 4) →
        (resizeContainBilinear white4 8 2).data ((y * 8 + x) * 4 + c) = 255) ∧
      (¬(3 ≤ x ∧ x ≤ 4) →
        (resizeContainBilinear white4 8 2).data ((y * 8 + x) * 4 + c) = 0)) := by
  refine ⟨rfl, rfl, ?_, ?_, ?_⟩
  · intro x y c hx hy hc hout
    rw [resize_data_eq src dstW dstH hx hy hc, if_pos hout]
  · intro x y c hx hy hc hout
    rw [resize_data_eq src dstW dstH hx hy hc, if_neg hout]
  · intro x hx y hy c hc
    constructor
    · rintro ⟨h3, h4⟩
      have hin : ¬ outOfRange white4 (srcX white4 8 2 x) (srcY white4 8 2 y) := by
        rw [srcX_white4, srcY_white4]
        unfold outOfRange
        push_neg
        have hxq : (3 : ℚ) ≤ (x : ℚ) ∧ (x : ℚ) ≤ 4 := by
          constructor <;> exact_mod_cast (by omega : _)
        have hyq : (y : ℚ) ≤ 1 := by exact_mod_cast (by omega : y ≤ 1)
        have hyq0 : (0 : ℚ) ≤ (y : ℚ) := by positivity
        refine ⟨by linarith [hxq.1], by linarith, ?_, ?_⟩
        · show 2 * (x : ℚ) - 6 ≤ (white4.width : ℚ) - 1
          have : (white4.width : ℚ) = 4 := by norm_num [white4]
          rw [this]
          linarith [hxq.2]
        · show 2 * (y : ℚ) ≤ (white4.height : ℚ) - 1
          have : (white4.height : ℚ) = 4 := by norm_num [white4]
          rw [this]
          linarith
      rw [resize_data_eq white4 8 2 hx hy hc, if_neg hin, bilinear_white4]
      have hj : jsOr0 255 = 255 := by norm_num [jsOr0]
      rw [hj]
      rfl
    · intro hno
      have hout : outOfRange white4 (srcX white4 8 2 x) (srcY white4 8 2 y) := by
        rw [srcX_white4, srcY_white4]
        unfold outOfRange
        have hx5 : x ≤ 2 ∨ 5 ≤ x := by omega
        rcases hx5 with h | h
        · left
          have : (x : ℚ) ≤ 2 := by exact_mod_cast h
          linarith
        · right; right; left
          have h5 : (5 : ℚ) ≤ (x : ℚ) := by exact_mod_cast h
          have : (white4.width : ℚ) = 4 := by norm_num [white4]
          rw [this]
          linarith
      rw [resize_data_eq white4 8 2 hx hy hc, if_pos hout]

/-- Witness for C3: concrete pixels of the 4x4 white source resized into
8x2 — an out-of-range pixel is fully zero and an in-range pixel carries
the truncated interpolation. -/
theorem C3_resize_contain_witness :
    (resizeContainBilinear white4 8 2).data ((0 * 8 + 5) * 4 + 3) = 0 ∧
    (resizeContainBilinear white4 8 2).data ((0 * 8 + 3) * 4 + 3) =
      (jsOr0 (bilinear white4 (srcX white4 8 2 3) (srcY white4 8 2 0) 3)).toNat := by
  constructor
  · refine (C3_resize_contain white4 8 2).2.2.1 5 0 3 (by omega) (by omega) (by omega) ?_
    rw [srcX_white4, srcY_white4]
    unfold outOfRange
    right; right; left
    norm_num [white4]
  · refine (C3_resize_contain white4 8 2).2.2.2.1 3 0 3 (by omega) (by omega) (by omega) ?_
    rw [srcX_white4, srcY_white4]
    unfold outOfRange
    push_neg
    norm_num [white4]

/-! ### Batch polling protocol — `tryGetBatchResultImageBase64` -/

/-- The parse of one output line: `JSON.parse` either throws (the loop
ignores the line) or yields an object with a `custom_id` and possibly a
nested string payload at `response.body.data[0].b64_json` (`none` when
absent or not a string). -/
inductive ParsedLine
  | malformed
  | record (customId : String) (b64 : Option String)

/-- Split a character list the way `text.split(/\r?\n/)` does: each
newline ends a piece, consuming one immediately preceding `\r`. -/
def splitCRLF : List Char → List (List Char)
  | [] => [[]]
  | '\r' :: '\n' :: cs => [] :: splitCRLF cs
  | '\n' :: cs => [] :: splitCRLF cs
  | c :: cs =>
    match splitCRLF cs with
    | [] => [[c]]
    | l :: ls => (c :: l) :: ls

/-- `text.split(/\r?\n/)` on a string. -/
def jsLines (s : String) : List String :=
  (splitCRLF s.data).map (fun l => String.mk l)

/-- `t.slice(0, 200)` — the upstream-diagnostic truncation. -/
def take200 (s : String) : String := String.mk (s.data.take 200)

/-- The status object returned by `GET /v1/batches/{id}`. -/
structure BatchStatusResp where
  status : String
  output_file_id : Option String

/-- The upstream environment one `tryGetBatchResultImageBase64` call
observes: the status request (success flag, HTTP code, error text, parsed
body), the output-content request, and the JSON parser for output lines. -/
structure PollEnv where
  stOk : Bool
  stCode : Nat
  stText : String
  st : BatchStatusResp
  outOk : Bool
  outCode : Nat
  outText : String
  outContent : String
  parse : String → ParsedLine

/-- The non-throwing results of `tryGetBatchResultImageBase64`. -/
inductive FetchOk
  | notDone (status : String)
  | done (b64 : String)
deriving DecidableEq

/-- The linear scan over output lines: the first record whose
`custom_id` matches and whose payload is a nonempty string wins; parse
errors and other records are skipped. -/
def findResult (parse : String → ParsedLine) (customId : String) :
    List String → Option String
  | [] => none
  | l :: ls =>
    match parse l with
    | ParsedLine.malformed => findResult parse customId ls
    | ParsedLine.record cid b64 =>
      if cid ≠ customId then findResult parse customId ls
      else
        match b64 with
        | some b =>
          if b.length > 0 then some b else findResult parse customId ls
        | none => findResult parse customId ls

/-- `tryGetBatchResultImageBase64` — thrown `Error` messages become
`Except.error` carrying the message string. -/
def tryGetBatchResultImageBase64 (env : PollEnv) (customId : String) :
    Except String FetchOk :=
  if ¬ env.stOk then
    Except.error ("OpenAI batch status failed (" ++ Nat.repr env.stCode ++ "): " ++
      take200 env.stText)
  else if env.st.status ≠ "completed" then
    Except.ok (FetchOk.notDone env.st.status)
  else
    match env.st.output_file_id with
    | none => Except.error "Batch completed but output_file_id is missing."
    | some _ =>
      if ¬ env.outOk then
        Except.error ("OpenAI batch output fetch failed (" ++ Nat.repr env.outCode ++
          "): " ++ take200 env.outText)
      else
        match findResult env.parse customId
            ((jsLines env.outContent).filter (fun l => l ≠ "")) with
        | some b64 => Except.ok (FetchOk.done b64)
        | none =>
          Except.error "Batch completed but no matching image result was found."

/-- Whether one line yields the payload for `customId`: a parsed record
with matching id and a nonempty string payload. -/
def lineMatch (parse : String → ParsedLine) (customId : String) (l : String) :
    Option String :=
  match parse l with
  | ParsedLine.malformed => none
  | ParsedLine.record cid b64 =>
    if cid = customId then
      match b64 with
      | some b => if b.length > 0 then some b else none
      | none => none
    else none

/-! ### PollOrchestrator — the bounded poll loop of the generate route -/

/-- One poll observation: either not ready (with the current job status)
or a found image. -/
inductive PollStep
  | notReady (status : String)
  | found (b64 : String)

/-- The `while (Date.now() - started < BATCH_POLL_TIMEOUT_MS)` loop of
the generate route, modelling each status query as instantaneous and
each sleep as advancing time by `intervalMs`.  `k` is the index of the
next poll, `elapsed` the elapsed time; the fuel is an upper bound on the
number of iterations (made sufficient by the caller). -/
def pollLoop (poll : Nat → PollStep) (intervalMs timeoutMs : Nat) :
    Nat → Nat → Nat → Option String × Nat
  | 0, _, elapsed => (none, elapsed)
  | fuel + 1, k, elapsed =>
    if elapsed < timeoutMs then
      match poll k with
      | PollStep.found b64 => (some b64, elapsed)
      | PollStep.notReady _ =>
        pollLoop poll intervalMs timeoutMs fuel (k + 1) (elapsed + intervalMs)
    else (none, elapsed)

/-- The bounded wait: run the poll loop from time `0`; returns the found
image (if any) and the time at which the loop exited. -/
def awaitWithBudget (poll : Nat → PollStep) (intervalMs timeoutMs : Nat) :
    Option String × Nat :=
  pollLoop poll intervalMs timeoutMs (timeoutMs + 1) 0 0

/-- The two response shapes of the generate route after submission:
a finished image (HTTP 200) or a pending signal carrying the job and
correlation ids (HTTP 202). -/
inductive GenResponse
  | image (buf : String)
  | pending (batchId customId : String)
deriving DecidableEq

/-- The tail of the generate route's batch branch: poll within the
budget, answer 202 with the ids when nothing was found, otherwise
post-process and answer 200 with the image. -/
def generateBatchSection (poll : Nat → PollStep) (intervalMs timeoutMs : Nat)
    (batchId customId : String) (post : String → String) : GenResponse :=
  match (awaitWithBudget poll intervalMs timeoutMs).1 with
  | none => GenResponse.pending batchId customId
  | some b64 => GenResponse.image (post b64)

/-! ### Pipeline Coordinator — post-processing with pass-through -/

/-- The two-stage post-processing of a resolved image with local
recovery: `normalize` models `makeInteriorOpaquePngBase64` (PNG decode +
pixel transform + re-encode; `none` = it threw), `fromBase64` models
`Buffer.from(b64, "base64")`, and `resize` models
`PNG.sync.read` + `resizeContainBilinear` (`none` = it threw).  Each
`catch` passes the prior-stage buffer through. -/
def postProcessPipeline (normalize : String → Option String)
    (fromBase64 : String → String) (resize : String → Option String)
    (b64 : String) : String :=
  let b64Fixed := (normalize b64).getD b64
  let pngBuf := fromBase64 b64Fixed
  (resize pngBuf).getD pngBuf

/-! ### Batch polling route — `GET /api/batch` -/

/-- The response shapes of the polling route. -/
inductive BatchGetResponse
  | image (buf : String)
  | pending (batchId customId : String)
  | badRequest (error : String)
  | serverError (error : String)
deriving DecidableEq

/-- `GET` of `src/app/api/batch/route.ts`, including the surrounding
`try`/`catch`: any exception thrown by `tryGetBatchResultImageBase64`
is caught and becomes a 500 response with a fixed generic `error`
field; `post` is the post-processing pipeline. -/
def batchGet (hasApiKey : Bool) (env : PollEnv) (post : String → String)
    (batchId customId : String) : BatchGetResponse :=
  if ¬ hasApiKey then
    BatchGetResponse.serverError "OPENAI_API_KEY is not set on the server."
  else if batchId = "" ∨ customId = "" then
    BatchGetResponse.badRequest "batch_id and custom_id are required."
  else
    match tryGetBatchResultImageBase64 env customId with
    | Except.error _ =>
      BatchGetResponse.serverError "Unexpected server error in /api/batch"
    | Except.ok (FetchOk.notDone _) => BatchGetResponse.pending batchId customId
    | Except.ok (FetchOk.done b64) => BatchGetResponse.image (post b64)

/-! ### JobSubmitter — `POST /api/batch-csv` -/

/-- The ASCII whitespace class of JavaScript `String.prototype.trim`
(Unicode space classes are elided). -/
def isWS (c : Char) : Bool :=
  c = ' ' || c = '\t' || c = '\n' || c = '\r' || c = '\x0b' || c = '\x0c'

/-- JavaScript `s.trim()`: strip leading and trailing whitespace. -/
def jsTrim (s : String) : String :=
  String.mk (((s.data.dropWhile isWS).reverse.dropWhile isWS).reverse)

/-- One entry of the posted `payload.items` array. -/
structure CsvItemIn where
  message : String
  keyword : String
deriving DecidableEq

/-- One entry of the returned `items` array. -/
structure OutItem where
  custom_id : String
  message : String
  keyword : String
deriving DecidableEq

/-- One JSONL request line, abstracted to its identifying fields; the
JSON body additionally carries the prompt built from `message` and
`keyword` by `buildPrompt` (pure string assembly, elided). -/
structure ReqLine where
  custom_id : String
  message : String
  keyword : String
deriving DecidableEq

/-- `String(i + 1).padStart(4, "0")`. -/
def padStart4Zero (s : String) : String :=
  String.mk (List.replicate (4 - s.data.length) '0' ++ s.data)

/-- The correlation id `csv-${ts}-${String(i + 1).padStart(4, "0")}`. -/
def csvCustomId (ts i : Nat) : String :=
  "csv-" ++ Nat.repr ts ++ "-" ++ padStart4Zero (Nat.repr (i + 1))

/-- The sanitisation of the posted items: trim both fields and drop
entries whose trimmed message is empty. -/
def sanitizeItems (l : List CsvItemIn) : List CsvItemIn :=
  (l.map (fun x => ⟨jsTrim x.message, jsTrim x.keyword⟩)).filter
    (fun x => decide (x.message.length > 0))

/-- The id-assignment loop: for each surviving item, in input order, one
JSONL line and one output item with `custom_id = csvCustomId ts i`. -/
def buildOutputs (ts : Nat) (items : List CsvItemIn) :
    List ReqLine × List OutItem :=
  ((List.range items.length).map (fun i =>
      ⟨csvCustomId ts i, (items.getD i ⟨"", ""⟩).message,
        (items.getD i ⟨"", ""⟩).keyword⟩),
   (List.range items.length).map (fun i =>
      ⟨csvCustomId ts i, (items.getD i ⟨"", ""⟩).message,
        (items.getD i ⟨"", ""⟩).keyword⟩))

/-- The upstream environment of one `POST /api/batch-csv` call:
the parsed `payload.items` (`none` when not an array), `Date.now()`, and
the outcomes of the file upload and the batch creation. -/
structure CsvEnv where
  payload : Option (List CsvItemIn)
  ts : Nat
  uploadOk : Bool
  uploadCode : Nat
  uploadText : String
  fileId : String
  createOk : Bool
  createCode : Nat
  createText : String
  batchId : String

/-- The upstream calls the handler can perform, in order. -/
inductive UpCall
  | uploadFile
  | createBatch
deriving DecidableEq

/-- The response shapes of the `batch-csv` route. -/
inductive CsvResponse
  | ok (batchId : String) (items : List OutItem)
  | badRequest (error : String)
  | upstreamError (code : Nat) (error : String)
deriving DecidableEq

/-- `POST` of `src/app/api/batch-csv/route.ts` (after payload parsing),
together with the list of upstream calls it performs. -/
def csvPost (env : CsvEnv) : CsvResponse × List UpCall :=
  let itemsIn := env.payload.getD []
  let items := sanitizeItems itemsIn
  if items.length = 0 then
    (CsvResponse.badRequest "No valid items in payload.", [])
  else
    let outs := buildOutputs env.ts items
    if ¬ env.uploadOk then
      (CsvResponse.upstreamError 502
        ("OpenAI file upload failed (" ++ Nat.repr env.uploadCode ++ "): " ++
          take200 env.uploadText), [UpCall.uploadFile])
    else if ¬ env.createOk then
      (CsvResponse.upstreamError 502
        ("OpenAI batch create failed (" ++ Nat.repr env.createCode ++ "): " ++
          take200 env.createText), [UpCall.uploadFile, UpCall.createBatch])
    else
      (CsvResponse.ok env.batchId outs.2, [UpCall.uploadFile, UpCall.createBatch])

/-! ### Lemmas about the output-line scan -/

lemma findResult_cons (parse : String → ParsedLine) (cid l : String)
    (ls : List String) :
    findResult parse cid (l :: ls) =
      match parse l with
      | ParsedLine.malformed => findResult parse cid ls
      | ParsedLine.record cid2 b64 =>
        if cid2 ≠ cid then findResult parse cid ls
        else
          match b64 with
          | some b => if b.length > 0 then some b else findResult parse cid ls
          | none => findResult parse cid ls := rfl

lemma findResult_cons_none (parse : String → ParsedLine) (cid l : String)
    (ls : List String) (h : lineMatch parse cid l = none) :
    findResult parse cid (l :: ls) = findResult parse cid ls := by
  unfold lineMatch at h
  rw [findResult_cons]
  rcases hp : parse l with _ | ⟨cid2, b64⟩
  · rfl
  · rw [hp] at h
    dsimp only at h
    dsimp only
    by_cases hc : cid2 = cid
    · subst hc
      rw [if_neg (fun hx => hx rfl)]
      rw [if_pos rfl] at h
      rcases b64 with _ | b
      · rfl
      · dsimp only at h ⊢
        by_cases hb : b.length > 0
        · rw [if_pos hb] at h
          exact absurd h (by simp)
        · rw [if_neg hb]
    · rw [if_pos hc]

lemma findResult_cons_some (parse : String → ParsedLine) (cid l : String)
    (ls : List String) (b : String) (h : lineMatch parse cid l = some b) :
    findResult parse cid (l :: ls) = some b := by
  unfold lineMatch at h
  rw [findResult_cons]
  rcases hp : parse l with _ | ⟨cid2, b64⟩
  · rw [hp] at h
    exact absurd h (by simp)
  · rw [hp] at h
    dsimp only at h
    dsimp only
    by_cases hc : cid2 = cid
    · subst hc
      rw [if_neg (fun hx => hx rfl)]
      rw [if_pos rfl] at h
      rcases b64 with _ | bv
      · exact absurd h (by simp)
      · dsimp only at h ⊢
        by_cases hb : bv.length > 0
        · rw [if_pos hb] at h
          simp only [Option.some.injEq] at h
          subst h
          rw [if_pos hb]
        · rw [if_neg hb] at h
          exact absurd h (by simp)
    · rw [if_neg hc] at h
      exact absurd h (by simp)

lemma findResult_of_first (parse : String → ParsedLine) (cid : String) :
    ∀ (L1 : List String) (l : String) (L2 : List String) (b : String),
    (∀ lp ∈ L1, lineMatch parse cid lp = none) →
    lineMatch parse cid l = some b →
    findResult parse cid (L1 ++ l :: L2) = some b := by
  intro L1
  induction L1 with
  | nil =>
    intro l L2 b _ hsome
    exact findResult_cons_some parse cid l L2 b hsome
  | cons a L1 ih =>
    intro l L2 b hnone hsome
    rw [List.cons_append,
      findResult_cons_none parse cid a _ (hnone a (List.mem_cons_self a L1))]
    exact ih l L2 b (fun lp hlp => hnone lp (List.mem_cons_of_mem _ hlp)) hsome

lemma findResult_of_none (parse : String → ParsedLine) (cid : String) :
    ∀ (ls : List String), (∀ lp ∈ ls, lineMatch parse cid lp = none) →
    findResult parse cid ls = none := by
  intro ls
  induction ls with
  | nil => intro _; rfl
  | cons a ls ih =>
    intro hnone
    rw [findResult_cons_none parse cid a ls (hnone a (List.mem_cons_self a ls))]
    exact ih (fun lp hlp => hnone lp (List.mem_cons_of_mem _ hlp))

/-- C4: the result fetch returns a not-done indication carrying the
current status whenever the job status is anything but `completed`
(whatever the output artifact holds); when completed it scans the
newline-delimited records linearly and returns the payload of the first
record whose correlation id matches (with a nonempty payload); and when
no such record exists it raises the terminal result-missing error
rather than returning not-done. -/
theorem C4_try_get_result (env : PollEnv) (customId : String) :
    (env.stOk = true → env.st.status ≠ "completed" →
      tryGetBatchResultImageBase64 env customId =
        Except.ok (FetchOk.notDone env.st.status)) ∧
    (∀ fid, env.stOk = true → env.st.status = "completed" →
      env.st.output_file_id = some fid → env.outOk = true →
      (∀ L1 l L2 b,
        (jsLines env.outContent).filter (fun l => l ≠ "") = L1 ++ l :: L2 →
        (∀ lp ∈ L1, lineMatch env.parse customId lp = none) →
        lineMatch env.parse customId l = some b →
        tryGetBatchResultImageBase64 env customId =
          Except.ok (FetchOk.done b)) ∧
      ((∀ lp ∈ (jsLines env.outContent).filter (fun l => l ≠ ""),
          lineMatch env.parse customId lp = none) →
        tryGetBatchResultImageBase64 env customId =
          Except.error "Batch completed but no matching image result was found.")) := by
  constructor
  · intro hok hnc
    unfold tryGetBatchResultImageBase64
    rw [if_neg (by simp [hok]), if_pos hnc]
  · intro fid hok hc hfid hoOk
    constructor
    · intro L1 l L2 b hsplit hnone hsome
      unfold tryGetBatchResultImageBase64
      rw [if_neg (by simp [hok]), if_neg (by simp [hc])]
      rw [hfid]
      simp only []
      rw [if_neg (by simp [hoOk])]
      rw [hsplit, findResult_of_first env.parse customId L1 l L2 b hnone hsome]
    · intro hnone
      unfold tryGetBatchResultImageBase64
      rw [if_neg (by simp [hok]), if_neg (by simp [hc])]
      rw [hfid]
      simp only []
      rw [if_neg (by simp [hoOk])]
      rw [findResult_of_none env.parse customId _ hnone]

/-! ### C6 — bounded termination of the poll loop -/

lemma pollLoop_spec (poll : Nat → PollStep) (i T : Nat) (hi : 0 < i) :
    ∀ (fuel k e : Nat), e = k * i → T ≤ e + fuel * i → e < T + i →
    (∀ b t, pollLoop poll i T fuel k e = (some b, t) →
      ∃ kf, k ≤ kf ∧ t = kf * i ∧ t < T ∧ poll kf = PollStep.found b ∧
        ∀ j bq, k ≤ j → j < kf → poll j ≠ PollStep.found bq) ∧
    (∀ t, pollLoop poll i T fuel k e = (none, t) →
      T ≤ t ∧ t < T + i ∧
        ∀ j bq, k ≤ j → j * i < T → poll j ≠ PollStep.found bq) := by
  intro fuel
  induction fuel with
  | zero =>
    intro k e he hfuel he2
    constructor
    · intro b t hres
      exact absurd hres (by simp [pollLoop])
    · intro t hres
      simp only [pollLoop, Prod.mk.injEq] at hres
      obtain ⟨_, rfl⟩ := hres
      refine ⟨by omega, he2, ?_⟩
      intro j bq hkj hjT
      exfalso
      have : k * i ≤ j * i := Nat.mul_le_mul_right i hkj
      omega
  | succ fuel ih =>
    intro k e he hfuel he2
    by_cases hlt : e < T
    · rcases hpk : poll k with st | bf
      · have hrec : pollLoop poll i T (fuel + 1) k e =
            pollLoop poll i T fuel (k + 1) (e + i) := by
          simp only [pollLoop, if_pos hlt, hpk]
        have hsm : (k + 1) * i = k * i + i := by ring
        have hfm : (fuel + 1) * i = fuel * i + i := by ring
        obtain ⟨ihs, ihn⟩ := ih (k + 1) (e + i) (by omega) (by omega) (by omega)
        constructor
        · intro b t hres
          rw [hrec] at hres
          obtain ⟨kf, hkf, ht, htT, hfound, hnone⟩ := ihs b t hres
          refine ⟨kf, by omega, ht, htT, hfound, ?_⟩
          intro j bq hkj hjkf
          by_cases hjk : j = k
          · subst hjk
            rw [hpk]
            intro hcon
            exact absurd hcon (by simp)
          · exact hnone j bq (by omega) hjkf
        · intro t hres
          rw [hrec] at hres
          obtain ⟨h1, h2, h3⟩ := ihn t hres
          refine ⟨h1, h2, ?_⟩
          intro j bq hkj hjT
          by_cases hjk : j = k
          · subst hjk
            rw [hpk]
            intro hcon
            exact absurd hcon (by simp)
          · exact h3 j bq (by omega) hjT
      · have hres0 : pollLoop poll i T (fuel + 1) k e = (some bf, e) := by
          simp only [pollLoop, if_pos hlt, hpk]
        constructor
        · intro b t hres
          rw [hres0] at hres
          simp only [Prod.mk.injEq, Option.some.injEq] at hres
          obtain ⟨rfl, rfl⟩ := hres
          exact ⟨k, le_refl _, he, hlt, hpk, fun j bq hkj hjk => by omega⟩
        · intro t hres
          rw [hres0] at hres
          exact absurd hres (by simp)
    · have hres0 : pollLoop poll i T (fuel + 1) k e = (none, e) := by
        simp only [pollLoop, if_neg hlt]
      constructor
      · intro b t hres
        rw [hres0] at hres
        exact absurd hres (by simp)
      · intro t hres
        rw [hres0] at hres
        simp only [Prod.mk.injEq] at hres
        obtain ⟨_, rfl⟩ := hres
        refine ⟨by omega, he2, ?_⟩
        intro j bq hkj hjT
        exfalso
        have : k * i ≤ j * i := Nat.mul_le_mul_right i hkj
        omega

/-- C6: for every sequence of poller responses the bounded poll loop
exits strictly before `timeoutMs + pollIntervalMs` (each status query
modelled as instantaneous); it returns the image of the first found
poll, having slept `pollIntervalMs` between not-ready polls; and when
every in-budget poll is not-ready the route answers 202 pending with
the job and correlation ids instead of looping further. -/
theorem C6_bounded_poll (poll : Nat → PollStep) (intervalMs timeoutMs : Nat)
    (hi : 0 < intervalMs) (batchId customId : String) (post : String → String) :
    (awaitWithBudget poll intervalMs timeoutMs).2 < timeoutMs + intervalMs ∧
    (∀ b t, awaitWithBudget poll intervalMs timeoutMs = (some b, t) →
      ∃ k, t = k * intervalMs ∧ t < timeoutMs ∧ poll k = PollStep.found b ∧
        ∀ j bq, j < k → poll j ≠ PollStep.found bq) ∧
    (∀ t, awaitWithBudget poll intervalMs timeoutMs = (none, t) →
      timeoutMs ≤ t ∧
      (∀ j bq, j * intervalMs < timeoutMs → poll j ≠ PollStep.found bq) ∧
      generateBatchSection poll intervalMs timeoutMs batchId customId post =
        GenResponse.pending batchId customId) := by
  have hfuel : timeoutMs ≤ 0 + (timeoutMs + 1) * intervalMs := by
    have := Nat.le_mul_of_pos_right (timeoutMs + 1) hi
    omega
  obtain ⟨hs, hn⟩ := pollLoop_spec poll intervalMs timeoutMs hi (timeoutMs + 1) 0 0
    (by omega) hfuel (by omega)
  refine ⟨?_, ?_, ?_⟩
  · rcases hres : awaitWithBudget poll intervalMs timeoutMs with ⟨r, t⟩
    rcases r with _ | b
    · have := hn t hres
      simp only []
      omega
    · obtain ⟨kf, _, _, htT, _, _⟩ := hs b t hres
      simp only []
      omega
  · intro b t hres
    obtain ⟨kf, _, ht, htT, hfound, hnone⟩ := hs b t hres
    exact ⟨kf, ht, htT, hfound, fun j bq hj => hnone j bq (by omega) hj⟩
  · intro t hres
    obtain ⟨h1, _, h3⟩ := hn t hres
    refine ⟨h1, fun j bq hj => h3 j bq (by omega) hj, ?_⟩
    unfold generateBatchSection
    rw [hres]

/-- The poller of the spec's Scenario A: two not-ready polls, then the
image `"X"`. -/
def pollA : Nat → PollStep :=
  fun k => if k < 2 then PollStep.notReady "in_progress" else PollStep.found "X"

/-- Witness for C6: with a 2 ms interval and a 7 ms budget the Scenario A
poller returns within the budget. -/
theorem C6_bounded_poll_witness :
    (awaitWithBudget pollA 2 7).2 < 7 + 2 :=
  (C6_bounded_poll pollA 2 7 (by omega) "b1" "c1" id).1

/-- The parser of the C4 witness environment. -/
def parseT : String → ParsedLine := fun l =>
  if l = "L1" then ParsedLine.record "other" (some "P")
  else if l = "L2" then ParsedLine.record "c1" (some "X")
  else ParsedLine.malformed

/-- A completed-job environment whose artifact has a non-matching
record, then the matching record, then an unparsable line. -/
def envDone : PollEnv :=
  ⟨true, 200, "", ⟨"completed", some "file-1"⟩, true, 200, "",
    "L1\nL2\r\njunk", parseT⟩

/-- An in-progress environment whose artifact request would fail — the
fetch never happens. -/
def envWait : PollEnv :=
  ⟨true, 200, "", ⟨"in_progress", none⟩, false, 500, "boom", "ignored", parseT⟩

/-- Witness for C4: the completed job yields the payload of the first
matching record, and the in-progress job yields not-done regardless of
the (failing) artifact request. -/
theorem C4_try_get_result_witness :
    tryGetBatchResultImageBase64 envDone "c1" = Except.ok (FetchOk.done "X") ∧
    tryGetBatchResultImageBase64 envWait "c1" =
      Except.ok (FetchOk.notDone "in_progress") := by
  constructor
  · exact ((C4_try_get_result envDone "c1").2 "file-1" rfl rfl rfl rfl).1
      ["L1"] "L2" ["junk"] "X" (by decide) (by decide) (by decide)
  · exact (C4_try_get_result envWait "c1").1 rfl (by decide)

/-- C7: a failure in either post-processing stage never fails the
request: when the alpha normalisation throws, the raw base64 image is
passed straight through to the resize stage; when the resize stage
throws, the pre-resize buffer is returned; and whenever the poll found
an image the route responds 200 with an image. -/
theorem C7_postprocess_passthrough (normalize : String → Option String)
    (fromBase64 : String → String) (resize : String → Option String)
    (b64 : String) :
    (normalize b64 = none →
      postProcessPipeline normalize fromBase64 resize b64 =
        (resize (fromBase64 b64)).getD (fromBase64 b64)) ∧
    (∀ b64F, normalize b64 = some b64F → resize (fromBase64 b64F) = none →
      postProcessPipeline normalize fromBase64 resize b64 = fromBase64 b64F) ∧
    (normalize b64 = none → resize (fromBase64 b64) = none →
      postProcessPipeline normalize fromBase64 resize b64 = fromBase64 b64) ∧
    (∀ (poll : Nat → PollStep) (i T : Nat) (batchId customId bq : String)
      (t : Nat), awaitWithBudget poll i T = (some bq, t) →
      generateBatchSection poll i T batchId customId
        (postProcessPipeline normalize fromBase64 resize) =
        GenResponse.image (postProcessPipeline normalize fromBase64 resize bq)) := by
  refine ⟨?_, ?_, ?_, ?_⟩
  · intro h
    simp [postProcessPipeline, h]
  · intro b64F h1 h2
    simp [postProcessPipeline, h1, h2]
  · intro h1 h2
    simp [postProcessPipeline, h1, h2]
  · intro poll i T batchId customId bq t h
    unfold generateBatchSection
    rw [h]

/-- The always-throwing stages of the C7 witness. -/
def failStage : String → Option String := fun _ => none

/-- Witness for C7: when both stages throw, the raw image comes back
unchanged. -/
theorem C7_postprocess_passthrough_witness :
    postProcessPipeline failStage id failStage "IMG" = "IMG" :=
  (C7_postprocess_passthrough failStage id failStage "IMG").2.2.1 rfl rfl

/-! ### Lemmas about trimming and the id-assignment loop -/

lemma jsTrim_eq_empty_iff (s : String) :
    jsTrim s = "" ↔ s.data.all isWS = true := by
  rw [String.ext_iff]
  show ((s.data.dropWhile isWS).reverse.dropWhile isWS).reverse = [] ↔ _
  rw [List.reverse_eq_nil_iff, List.dropWhile_eq_nil_iff, List.all_eq_true]
  constructor
  · intro h c hc
    have hsplit := List.takeWhile_append_dropWhile (p := isWS) (l := s.data)
    rw [← hsplit] at hc
    rcases List.mem_append.mp hc with h1 | h1
    · exact List.mem_takeWhile_imp h1
    · exact h c (List.mem_reverse.mpr h1)
  · intro h c hc
    refine h c ?_
    have hsub : List.Sublist (s.data.dropWhile isWS) s.data :=
      List.dropWhile_sublist _
    exact hsub.mem (List.mem_reverse.mp hc)

lemma jsTrim_length_pos_iff (s : String) :
    (jsTrim s).length > 0 ↔ ¬ s.data.all isWS = true := by
  rw [← jsTrim_eq_empty_iff]
  constructor
  · intro h hc
    rw [hc] at h
    simp at h
  · intro h
    rcases Nat.eq_zero_or_pos (jsTrim s).length with h0 | h0
    · exfalso
      refine h ?_
      rw [String.ext_iff]
      have : (jsTrim s).data.length = 0 := h0
      exact List.length_eq_zero.mp this
    · exact h0

lemma buildOutputs_snd_length (ts : Nat) (items : List CsvItemIn) :
    (buildOutputs ts items).2.length = items.length := by
  simp [buildOutputs]

lemma buildOutputs_fst_length (ts : Nat) (items : List CsvItemIn) :
    (buildOutputs ts items).1.length = items.length := by
  simp [buildOutputs]

lemma buildOutputs_snd_getD (ts : Nat) (items : List CsvItemIn) (i : Nat)
    (hi : i < items.length) :
    (buildOutputs ts items).2.getD i ⟨"", "", ""⟩ =
      ⟨csvCustomId ts i, (items.getD i ⟨"", ""⟩).message,
        (items.getD i ⟨"", ""⟩).keyword⟩ := by
  unfold buildOutputs
  dsimp only
  rw [List.getD_eq_getElem?_getD, List.getElem?_map, List.getElem?_range hi]
  rfl

lemma buildOutputs_fst_getD (ts : Nat) (items : List CsvItemIn) (i : Nat)
    (hi : i < items.length) :
    (buildOutputs ts items).1.getD i ⟨"", "", ""⟩ =
      ⟨csvCustomId ts i, (items.getD i ⟨"", ""⟩).message,
        (items.getD i ⟨"", ""⟩).keyword⟩ := by
  unfold buildOutputs
  dsimp only
  rw [List.getD_eq_getElem?_getD, List.getElem?_map, List.getElem?_range hi]
  rfl

/-- C5: the submission endpoint filters out every task whose message is
empty or whitespace-only before any correlation id is assigned; each
surviving task receives the deterministic id
`csv-{ts}-{zero-padded 1-based index}`; and the returned items and the
JSONL request lines both match the surviving input order exactly, one
entry per surviving task. -/
theorem C5_csv_submission (env : CsvEnv)
    (hup : env.uploadOk = true) (hcr : env.createOk = true)
    (hne : sanitizeItems (env.payload.getD []) ≠ []) :
    (csvPost env).1 =
      CsvResponse.ok env.batchId
        (buildOutputs env.ts (sanitizeItems (env.payload.getD []))).2 ∧
    (buildOutputs env.ts (sanitizeItems (env.payload.getD []))).2.length =
      (sanitizeItems (env.payload.getD [])).length ∧
    (buildOutputs env.ts (sanitizeItems (env.payload.getD []))).1.length =
      (sanitizeItems (env.payload.getD [])).length ∧
    (∀ i, i < (sanitizeItems (env.payload.getD [])).length →
      (buildOutputs env.ts (sanitizeItems (env.payload.getD []))).2.getD i
          ⟨"", "", ""⟩ =
        ⟨csvCustomId env.ts i,
          ((sanitizeItems (env.payload.getD [])).getD i ⟨"", ""⟩).message,
          ((sanitizeItems (env.payload.getD [])).getD i ⟨"", ""⟩).keyword⟩) ∧
    (∀ i, i < (sanitizeItems (env.payload.getD [])).length →
      (buildOutputs env.ts (sanitizeItems (env.payload.getD []))).1.getD i
          ⟨"", "", ""⟩ =
        ⟨csvCustomId env.ts i,
          ((sanitizeItems (env.payload.getD [])).getD i ⟨"", ""⟩).message,
          ((sanitizeItems (env.payload.getD [])).getD i ⟨"", ""⟩).keyword⟩) ∧
    (∀ x : CsvItemIn,
      (jsTrim x.message).length > 0 ↔ ¬ x.message.data.all isWS = true) := by
  refine ⟨?_, buildOutputs_snd_length _ _, buildOutputs_fst_length _ _,
    fun i hi => buildOutputs_snd_getD _ _ i hi,
    fun i hi => buildOutputs_fst_getD _ _ i hi,
    fun x => jsTrim_length_pos_iff x.message⟩
  unfold csvPost
  dsimp only
  rw [if_neg (fun hlen => hne (List.length_eq_zero.mp hlen))]
  rw [if_neg (by simp [hup]), if_neg (by simp [hcr])]

/-- The payload of the C5 witness: a padded message, a whitespace-only
message (dropped), and a plain message. -/
def env5 : CsvEnv :=
  ⟨some [⟨" hi ", " k "⟩, ⟨"   ", ""⟩, ⟨"yo", ""⟩], 5, true, 200, "", "f1",
    true, 200, "", "B"⟩

/-- Witness for C5: the surviving two tasks get ids `csv-5-0001` and
`csv-5-0002` in input order. -/
theorem C5_csv_submission_witness :
    (csvPost env5).1 =
      CsvResponse.ok "B" (buildOutputs env5.ts (sanitizeItems (env5.payload.getD []))).2 ∧
    (buildOutputs env5.ts (sanitizeItems (env5.payload.getD []))).2.getD 0 ⟨"", "", ""⟩ =
      ⟨"csv-5-0001", "hi", "k"⟩ ∧
    (buildOutputs env5.ts (sanitizeItems (env5.payload.getD []))).2.getD 1 ⟨"", "", ""⟩ =
      ⟨"csv-5-0002", "yo", ""⟩ := by
  have h := C5_csv_submission env5 rfl rfl (by decide)
  refine ⟨h.1, ?_, ?_⟩
  · rw [h.2.2.2.1 0 (by decide)]
    decide
  · rw [h.2.2.2.1 1 (by decide)]
    decide

/-- C10: when every posted message is empty or whitespace-only (or the
items array is empty or absent), the endpoint answers 400 and performs
no upload and no batch creation. -/
theorem C10_reject_empty (env : CsvEnv)
    (hall : ∀ x ∈ env.payload.getD [], x.message.data.all isWS = true) :
    csvPost env = (CsvResponse.badRequest "No valid items in payload.", []) := by
  have hempty : sanitizeItems (env.payload.getD []) = [] := by
    unfold sanitizeItems
    rw [List.filter_eq_nil_iff]
    intro a ha
    obtain ⟨x, hx, rfl⟩ := List.mem_map.mp ha
    simp only [decide_eq_true_eq]
    intro hpos
    exact (jsTrim_length_pos_iff x.message).mp hpos (hall x hx)
  unfold csvPost
  dsimp only
  rw [hempty]
  rfl

/-- The all-blank payload of the C10 witness. -/
def env10 : CsvEnv :=
  ⟨some [⟨"  ", "kw"⟩], 9, true, 200, "", "f1", true, 200, "", "B"⟩

/-- Witness for C10: a single whitespace-only message yields 400 and no
upstream call. -/
theorem C10_reject_empty_witness :
    csvPost env10 = (CsvResponse.badRequest "No valid items in payload.", []) :=
  C10_reject_empty env10 (by decide)

/-! ### C8 — how upstream failures surface to the HTTP caller -/

/-- The environment of the C8 counterexample: the upstream status query
fails with a diagnostic the claim expects to reach the caller. -/
def env8 : PollEnv :=
  ⟨false, 500, "UPSTREAM_DIAGNOSTIC", ⟨"in_progress", none⟩, true, 200, "",
    "", parseT⟩

/-- Counterexample to C8 as stated: a status-query failure surfaces as a
500 response whose `error` field is the fixed generic message, which
does not contain the truncated upstream diagnostic. -/
theorem C8_counterexample :
    batchGet true env8 id "b1" "c1" =
      BatchGetResponse.serverError "Unexpected server error in /api/batch" ∧
    ¬ ((take200 env8.stText).data <:+:
        ("Unexpected server error in /api/batch").data) := by
  constructor
  · decide
  · decide

/-- C8 (amended): upload and batch-creation failures in the `batch-csv`
endpoint surface as 502 responses whose `error` field carries the
upstream diagnostic truncated to 200 characters, while upstream failures
inside the polling route are caught by its catch-all and surface as a
500 response with a fixed generic `error` message. -/
theorem C8_amended_upstream_errors :
    (∀ env : CsvEnv, sanitizeItems (env.payload.getD []) ≠ [] →
      env.uploadOk = false →
      (csvPost env).1 = CsvResponse.upstreamError 502
        ("OpenAI file upload failed (" ++ Nat.repr env.uploadCode ++ "): " ++
          take200 env.uploadText)) ∧
    (∀ env : CsvEnv, sanitizeItems (env.payload.getD []) ≠ [] →
      env.uploadOk = true → env.createOk = false →
      (csvPost env).1 = CsvResponse.upstreamError 502
        ("OpenAI batch create failed (" ++ Nat.repr env.createCode ++ "): " ++
          take200 env.createText)) ∧
    (∀ (env : PollEnv) (post : String → String) (b c : String),
      b ≠ "" → c ≠ "" → env.stOk = false →
      batchGet true env post b c =
        BatchGetResponse.serverError "Unexpected server error in /api/batch") := by
  refine ⟨?_, ?_, ?_⟩
  · intro env hne hup
    unfold csvPost
    dsimp only
    rw [if_neg (fun hlen => hne (List.length_eq_zero.mp hlen))]
    rw [if_pos (by simp [hup])]
  · intro env hne hup hcr
    unfold csvPost
    dsimp only
    rw [if_neg (fun hlen => hne (List.length_eq_zero.mp hlen))]
    rw [if_neg (by simp [hup]), if_pos (by simp [hcr])]
  · intro env post b c hb hc hst
    unfold batchGet
    rw [if_neg (by simp)]
    rw [if_neg (by simp [hb, hc])]
    have herr : tryGetBatchResultImageBase64 env c =
        Except.error ("OpenAI batch status failed (" ++ Nat.repr env.stCode ++
          "): " ++ take200 env.stText) := by
      unfold tryGetBatchResultImageBase64
      rw [if_pos (by simp [hst])]
    rw [herr]

/-- The failing-upload environment of the C8 witness. -/
def envU : CsvEnv :=
  ⟨some [⟨"hello", ""⟩], 7, false, 503, "BOOM", "", true, 200, "", "B"⟩

/-- Witness for C8 (amended): a failed upload yields a 502 carrying the
truncated diagnostic, and a failed status query yields the generic 500. -/
theorem C8_amended_upstream_errors_witness :
    (csvPost envU).1 = CsvResponse.upstreamError 502
      ("OpenAI file upload failed (" ++ Nat.repr 503 ++ "): " ++ take200 "BOOM") ∧
    batchGet true env8 id "b1" "c1" =
      BatchGetResponse.serverError "Unexpected server error in /api/batch" := by
  constructor
  · exact C8_amended_upstream_errors.1 envU (by decide) rfl
  · exact C8_amended_upstream_errors.2.2 env8 id "b1" "c1" (by decide) (by decide) rfl

end Sticker
